import Mathlib

/-!
Shallow embedding of the contextualization / overlay-resolution engine of
`src/libs/inspecJS/src/context.ts`.

The mutable TypeScript object graph is represented as an arena:
profiles and controls live in two flat lists, and the mutual
`extends_from` / `extended_by` references are stored as indices into those
lists.  Each wrapper object of the TypeScript code corresponds to exactly one
arena slot, so TypeScript object identity (`Object.is`) becomes index
equality.  The imperative linking loops become left folds of step functions
over the index ranges, mirroring the source statement by statement.
-/

set_option maxRecDepth 100000

namespace InspecContext

/-- Raw result record, as described by the external raw-report schema:
a status plus free-text detail.  Only its presence matters to the core. -/
structure RawResult where
  status : String
  deriving Repr, DecidableEq

/-- Raw control record (`{ id, code, results }`).  `code` is optional because
`context.ts` guards with the falsy check `!this.data.code`. -/
structure AnyControl where
  id : String
  code : Option String
  results : List RawResult
  deriving Repr, DecidableEq

/-- Raw profile record (`{ name, parent_profile?, controls }`). -/
structure AnyProfile where
  name : String
  parent_profile : Option String
  controls : List AnyControl
  deriving Repr, DecidableEq

/-- Raw evaluation record (`{ profiles }`). -/
structure AnyEval where
  profiles : List AnyProfile
  deriving Repr, DecidableEq

/-- Modelled from the spec: `hdfWrapControl` is defined in
`compat_wrappers.ts`, which is not among the given sources.  Per the spec,
the HDF view of an evaluation control exposes the control's recorded result
segments (the "has recorded output" signal), so `hdf.segments` is modelled
as the control's results list. -/
def hdfSegments (c : AnyControl) : List RawResult := c.results

/-- JavaScript `String.prototype.trim`: strip whitespace from both ends.
(The built-in `String.trim` of Lean does not reduce in the kernel, so we
define the same function over the character list.) -/
def jsTrim (s : String) : String :=
  ⟨((s.data.dropWhile Char.isWhitespace).reverse.dropWhile Char.isWhitespace).reverse⟩

/-- JavaScript template-literal interpolation of a possibly-undefined string. -/
def showCode : Option String → String
  | none => "undefined"
  | some str => str

/-- The separator line used by `full_code`: 57 equality-sign characters. -/
def eqLine : String := ⟨List.replicate 57 '='⟩

/-- The profile-name banner prefixed to a control's code by `full_code`. -/
def bannerFor (pname : String) : String :=
  eqLine ++ "\n# Profile name: " ++ pname ++ "\n" ++ eqLine ++ "\n\n"

/-- Arena slot for one `ContextualizedControlImp`:
the raw data, the index of the owning profile, and the two link lists
(indices of other controls in the flat control list). -/
structure CControl where
  data : AnyControl
  sourced_from : Nat
  extends_from : List Nat
  extended_by : List Nat
  deriving Repr, DecidableEq

/-- Arena slot for one `ContextualizedProfile` inside an evaluation:
raw data, profile-level link lists (indices of profiles), and the indices of
the controls it contains (into the flat control list). -/
structure CProfile where
  data : AnyProfile
  extends_from : List Nat
  extended_by : List Nat
  contains : List Nat
  deriving Repr, DecidableEq

/-- The whole contextualized evaluation: the profile arena and the flat
control arena (`all_controls` of the source, which also owns the per-profile
`contains` contents). -/
structure CEval where
  profiles : List CProfile
  controls : List CControl
  deriving Repr, DecidableEq

/-- Replace the element at one position of a list (identity out of range). -/
def listModify (f : α → α) : Nat → List α → List α
  | _, [] => []
  | 0, a :: as => f a :: as
  | n + 1, a :: as => a :: listModify f n as

/-- `extends_from` of the control in slot `i` (empty out of range). -/
def extendsFrom (s : CEval) (i : Nat) : List Nat :=
  ((s.controls[i]?).map CControl.extends_from).getD []

/-- `extended_by` of the control in slot `i` (empty out of range). -/
def extendedBy (s : CEval) (i : Nat) : List Nat :=
  ((s.controls[i]?).map CControl.extended_by).getD []

/-- `data.id` of the control in slot `i`. -/
def dataId (s : CEval) (i : Nat) : Option String :=
  (s.controls[i]?).map (fun c => c.data.id)

/-- `data.code` of the control in slot `i` (conflating a missing slot with a
missing code; slots are always valid in states built by the algorithm). -/
def dataCode (s : CEval) (i : Nat) : Option String :=
  ((s.controls[i]?).map (fun c => c.data.code)).getD none

/-- Name of the owning profile of the control in slot `i`
(`this.sourced_from.data.name`). -/
def profileNameOf (s : CEval) (i : Nat) : String :=
  match s.controls[i]? with
  | none => ""
  | some cc => ((s.profiles[cc.sourced_from]?).map (fun p => p.data.name)).getD ""

/-- Phase 1 of `contextualizeEvaluation`: wrap every profile with empty link
lists, in source order. -/
def initProfiles (e : AnyEval) : List CProfile :=
  e.profiles.map (fun p =>
    { data := p, extends_from := [], extended_by := [], contains := [] })

/-- Index of the first profile wrapper whose raw name equals `pname`
(the `eval_context.contains.find((p) => p.data.name === ...)` lookup). -/
def findNameIdx (pname : String) : List CProfile → Option Nat
  | [] => none
  | p :: ps =>
    if p.data.name == pname then some 0 else (findNameIdx pname ps).map (fun k => k + 1)

/-- Index of the first raw profile whose name equals `pname`. -/
def findProfIdx (pname : String) : List AnyProfile → Option Nat
  | [] => none
  | p :: ps =>
    if p.name == pname then some 0 else (findProfIdx pname ps).map (fun k => k + 1)

/-- One iteration of the profile-parentage loop of `contextualizeEvaluation`
(the profile at position `j` is the loop variable `profile`): if it declares
`parent_profile`, look the parent up by name and, when found, push
`parent.extends_from += profile` and `profile.extended_by += parent`. -/
def linkProfilesStep (ps : List CProfile) (j : Nat) : List CProfile :=
  match ((ps[j]?).bind (fun pr => pr.data.parent_profile)).bind
      (fun pname => findNameIdx pname ps) with
  | none => ps
  | some parentIdx =>
    listModify (fun pr => { pr with extended_by := pr.extended_by ++ [parentIdx] }) j
      (listModify (fun pr => { pr with extends_from := pr.extends_from ++ [j] }) parentIdx ps)

/-- Phase 2 of `contextualizeEvaluation`: the profile-parentage loop. -/
def linkProfiles (ps : List CProfile) : List CProfile :=
  (List.range ps.length).foldl linkProfilesStep ps

/-- Phase 3 of `contextualizeEvaluation`: wrap every control of every profile
(profile order, then control order), assigning consecutive flat indices, and
record each profile's block of indices in its `contains`.  `j` is the index
of the first profile of `ps` and `start` the first free flat index. -/
def buildAux : Nat → Nat → List CProfile → List CProfile × List CControl
  | _, _, [] => ([], [])
  | j, start, p :: rest =>
    let cs := p.data.controls.map (fun c =>
      ({ data := c, sourced_from := j, extends_from := [], extended_by := [] } : CControl))
    let r := buildAux (j + 1) (start + cs.length) rest
    ({ p with contains := List.range' start cs.length } :: r.1, cs ++ r.2)

/-- The evaluation state after phases 1-3, before control linking. -/
def builtState (e : AnyEval) : CEval :=
  let ps := linkProfiles (initProfiles e)
  let r := buildAux 0 0 ps
  { profiles := r.1, controls := r.2 }

/-- `extended_profile.contains.find((c) => c.data.id === cc.data.id)`:
first control slot of `conts` whose raw id equals `cid`. -/
def findAncestorIn (s : CEval) (conts : List Nat) (cid : String) : Option Nat :=
  conts.find? (fun t =>
    match s.controls[t]? with
    | none => false
    | some c => c.data.id == cid)

/-- `all_controls.filter((c) => c.data.id === cc.data.id)` as flat indices. -/
def sameIdList (s : CEval) (cid : String) : List Nat :=
  (List.range s.controls.length).filter (fun t =>
    match s.controls[t]? with
    | none => false
    | some c => c.data.id == cid)

/-- `c.hdf.segments && c.hdf.segments.length`: the control in slot `t` has a
non-empty recorded-segments list. -/
def populatedAt (s : CEval) (t : Nat) : Bool :=
  match s.controls[t]? with
  | none => false
  | some c => !(hdfSegments c.data).isEmpty

/-- The Case B base for raw id `cid`: among the flat slots sharing the id
(`same_id`), the first with populated segments, else the first slot
(`same_id[0]`; `none` only when no control carries the id at all). -/
def caseBBaseOf (s : CEval) (cid : String) : Option Nat :=
  match (sameIdList s cid).find? (populatedAt s) with
  | some b => some b
  | none => (sameIdList s cid).head?

/-- The link decision of one iteration of the control-linking loop for the
control in slot `i`: `some t` when the iteration pushes the edge pair
`t.extended_by += i` / `i.extends_from += t`, and `none` when it pushes
nothing (`continue`, unmatched ancestor, or `Object.is(cc, base)`).
The branch structure mirrors the source:
Case A when the owning profile has any profile-level link (skip if the
owning profile extends nothing, else first id match across the extended
profiles in order); Case B otherwise (peers sharing the raw id, preferring
the first peer with populated segments, else the first peer). -/
def controlTarget (s : CEval) (i : Nat) : Option Nat :=
  match s.controls[i]? with
  | none => none
  | some cc =>
    match s.profiles[cc.sourced_from]? with
    | none => none
    | some pr =>
      if pr.extends_from.length != 0 || pr.extended_by.length != 0 then
        if pr.extends_from.length = 0 then none
        else
          pr.extends_from.findSome? (fun q =>
            match s.profiles[q]? with
            | none => none
            | some ep => findAncestorIn s ep.contains cc.data.id)
      else
        match caseBBaseOf s cc.data.id with
        | none => none
        | some b => if b = i then none else some b

/-- Push the edge pair of one link: first `t.extended_by += i`, then
`i.extends_from += t` (the order of the two pushes in the source). -/
def pushEdge (s : CEval) (i t : Nat) : CEval :=
  let cs1 := listModify (fun c => { c with extended_by := c.extended_by ++ [i] }) t s.controls
  { s with controls := listModify (fun c => { c with extends_from := c.extends_from ++ [t] }) i cs1 }

/-- One iteration of the control-linking loop. -/
def linkControlStep (s : CEval) (i : Nat) : CEval :=
  match controlTarget s i with
  | none => s
  | some t => pushEdge s i t

/-- Phase 4 of `contextualizeEvaluation`: link every control, in flat order. -/
def linkControls (s : CEval) : CEval :=
  (List.range s.controls.length).foldl linkControlStep s

/-- `contextualizeEvaluation`: wrap profiles, link profile parentage, wrap
controls, link controls. -/
def contextualizeEvaluation (e : AnyEval) : CEval :=
  linkControls (builtState e)

/-- The `root` getter: follow `extends_from[0]` while `extends_from` is
non-empty.  The unbounded `while` loop of the source is embedded with
explicit fuel; `root` below supplies fuel `N` (the control count), which is
sufficient whenever the chain is acyclic. -/
def rootAux (s : CEval) : Nat → Nat → Nat
  | 0, i => i
  | fuel + 1, i =>
    match extendsFrom s i with
    | [] => i
    | a :: _ => rootAux s fuel a

/-- The `root` getter of the control in slot `i`. -/
def root (s : CEval) (i : Nat) : Nat :=
  rootAux s s.controls.length i

/-- The `is_redundant` getter:
`!code || code.trim() === '' || (extends_from.length > 0 && code === root.data.code)`. -/
def isRedundant (s : CEval) (i : Nat) : Bool :=
  (match dataCode s i with
   | none => true
   | some str => jsTrim str == "") ||
  (!(extendsFrom s i).isEmpty && dataCode s i == dataCode s (root s i))

/-- The `full_code` getter, with explicit fuel for the recursion along
`extends_from[0]` (the source recurses unboundedly; fuel `N` is supplied by
`full_code` below and suffices on acyclic chains).  A control with an
ancestor returns the ancestor's full code unchanged when redundant, else its
own banner and code followed by the ancestor's full code, trimmed; a root
control returns its banner and code, trimmed. -/
def fullCodeAux (s : CEval) : Nat → Nat → String
  | 0, _ => ""
  | fuel + 1, i =>
    match extendsFrom s i with
    | [] => jsTrim (bannerFor (profileNameOf s i) ++ showCode (dataCode s i))
    | a :: _ =>
      if isRedundant s i then fullCodeAux s fuel a
      else
        jsTrim (bannerFor (profileNameOf s i) ++ showCode (dataCode s i) ++ "\n\n" ++
          fullCodeAux s fuel a)

/-- The `full_code` getter of the control in slot `i`.  The recursion visits
one control per fuel unit; a terminating chain visits at most
`s.controls.length` controls, so fuel `s.controls.length + 1` always
completes it. -/
def full_code (s : CEval) (i : Nat) : String :=
  fullCodeAux s (s.controls.length + 1) i

/-- Result of `contextualizeProfile`: a stand-alone profile wrapper, with its
control wrappers owned directly (there is no evaluation-level arena; the
`sourced_from` back reference of the controls is the constant 0 standing for
this single profile). -/
structure StandaloneProfile where
  data : AnyProfile
  sourced_from : Option CEval
  extends_from : List Nat
  extended_by : List Nat
  contains : List CControl
  deriving Repr, DecidableEq

/-- `contextualizeProfile`: wrap a single raw profile with `sourced_from =
null`, give it its controls with empty link lists, and run no linking. -/
def contextualizeProfile (p : AnyProfile) : StandaloneProfile :=
  { data := p
    sourced_from := none
    extends_from := []
    extended_by := []
    contains := p.controls.map (fun c =>
      { data := c, sourced_from := 0, extends_from := [], extended_by := [] }) }

/-- Profile-level `extends_from` of the profile in slot `P`. -/
def profExtendsFrom (s : CEval) (P : Nat) : List Nat :=
  ((s.profiles[P]?).map CProfile.extends_from).getD []

/-- Profile-level `extended_by` of the profile in slot `P`. -/
def profExtendedBy (s : CEval) (P : Nat) : List Nat :=
  ((s.profiles[P]?).map CProfile.extended_by).getD []

/-- `contains` of the profile in slot `P`. -/
def profContains (s : CEval) (P : Nat) : List Nat :=
  ((s.profiles[P]?).map CProfile.contains).getD []

/-- The owning-profile slot of the control in slot `i`. -/
def profIdxOf (s : CEval) (i : Nat) : Option Nat :=
  (s.controls[i]?).map CControl.sourced_from

/-- The successor along the overlay chain: `extends_from[0]`, if any. -/
def nextC (s : CEval) (i : Nat) : Option Nat :=
  (extendsFrom s i).head?

/-- Follow `extends_from[0]` for exactly `k` steps; `none` when a chain end
is reached strictly before the `k`-th step. -/
def chainIter (s : CEval) : Nat → Nat → Option Nat
  | 0, i => some i
  | k + 1, i =>
    match nextC s i with
    | none => none
    | some a => chainIter s k a

/-- The overlay chain starting at slot `i` reaches a control with empty
`extends_from` within `fuel` steps (so the `root` loop of the source
terminates after at most `fuel` iterations). -/
def termWithin (s : CEval) : Nat → Nat → Bool
  | 0, i => (extendsFrom s i).isEmpty
  | fuel + 1, i =>
    match extendsFrom s i with
    | [] => true
    | a :: _ => termWithin s fuel a

/-- The resolved parent declaration of profile `j` of the raw evaluation:
the position of the first profile whose name equals `j`'s declared
`parent_profile`, if any (the lookup performed by the profile-linking loop). -/
def declParent (e : AnyEval) (j : Nat) : Option Nat :=
  ((e.profiles[j]?).bind (fun p => p.parent_profile)).bind
    (fun pname => findProfIdx pname e.profiles)

/-- The chain of resolved parent declarations starting at profile `j`
reaches a profile with no resolved declaration within `fuel` steps. -/
def pTerm (e : AnyEval) : Nat → Nat → Bool
  | 0, j => (declParent e j).isNone
  | fuel + 1, j =>
    match declParent e j with
    | none => true
    | some q => pTerm e fuel q

/-- Length of the chain of resolved parent declarations from profile `j`,
computed with fuel (exact once the chain terminates within the fuel). -/
def plen (e : AnyEval) : Nat → Nat → Nat
  | 0, _ => 0
  | fuel + 1, j =>
    match declParent e j with
    | none => 0
    | some q => plen e fuel q + 1

/-- Acyclicity of the parent declarations of a raw evaluation: every
profile's chain of resolved parent declarations terminates within
`e.profiles.length` steps.  (Equivalently: the functional graph of
`declParent e` has no cycle.) -/
def ProfileDeclsAcyclic (e : AnyEval) : Prop :=
  ∀ j, j < e.profiles.length → pTerm e e.profiles.length j = true

/-- Number of controls of a raw evaluation. -/
def totalControls (e : AnyEval) : Nat :=
  (e.profiles.map (fun p => p.controls.length)).sum

/-- The declaration-chain length of the owning profile of control slot `v`
(0 for an invalid slot).  It increases by exactly one along every Case A
link when the declaration chains terminate, which rules out Case A cycles. -/
def plenAt (e : AnyEval) (v : Nat) : Nat :=
  match (builtState e).controls[v]? with
  | none => 0
  | some c => plen e e.profiles.length c.sourced_from

/-- The spec's wording of `is_redundant`: raw code absent or blank (empty
after trimming), or `extends_from` non-empty and raw code exactly equal to
the root's raw code. -/
def isRedundantSpec (s : CEval) (i : Nat) : Prop :=
  dataCode s i = none ∨
  (∃ str, dataCode s i = some str ∧ jsTrim str = "") ∨
  (extendsFrom s i ≠ [] ∧ dataCode s i = dataCode s (root s i))

/-- Two evaluation states agree on everything the link decisions read:
the profile arena and, per control slot, the raw data and owning profile.
Control linking only ever appends to control link lists, so every state
reached during the control-linking loop is `SameStatic` with the initial
one. -/
def SameStatic (s s2 : CEval) : Prop :=
  s2.profiles = s.profiles ∧
  s2.controls.length = s.controls.length ∧
  ∀ i : Nat, (s2.controls[i]?).map (fun c : CControl => (c.data, c.sourced_from)) =
       (s.controls[i]?).map (fun c : CControl => (c.data, c.sourced_from))

/-- The state of the control-linking loop after its first `m` iterations. -/
def afterSteps (s0 : CEval) (m : Nat) : CEval :=
  (List.range m).foldl linkControlStep s0

/-- Two profile arenas with the same raw data per slot (the profile-linking
loop only appends to link lists, so its intermediate states all satisfy
this against the initial arena). -/
def SameProfileData (ps ps2 : List CProfile) : Prop :=
  ps2.length = ps.length ∧
  ∀ j : Nat, (ps2[j]?).map CProfile.data = (ps[j]?).map CProfile.data

/-- The state of the profile-linking loop after its first `m` iterations. -/
def afterPSteps (ps : List CProfile) (m : Nat) : List CProfile :=
  (List.range m).foldl linkProfilesStep ps

/-- Scenario 1 of the spec: profile `A` (no parent) with control `c1`
(code `"show cmd"`), and profile `B` (`parent_profile: "A"`) with control
`c1` (code `""`). -/
def evalC1 : AnyEval :=
  { profiles := [
      { name := "A", parent_profile := none,
        controls := [{ id := "c1", code := some "show cmd", results := [] }] },
      { name := "B", parent_profile := some "A",
        controls := [{ id := "c1", code := some "", results := [] }] } ] }

/-- Contextualization of Scenario 1.  Flat slots: 0 = `A.c1`, 1 = `B.c1`. -/
def sC1 : CEval := contextualizeEvaluation evalC1

/-- A one-profile evaluation whose only control has empty code: after
contextualization the control is redundant but extends from nothing. -/
def evalC2ce : AnyEval :=
  { profiles := [
      { name := "P", parent_profile := none,
        controls := [{ id := "z", code := some "", results := [] }] } ] }

/-- Contextualization of `evalC2ce`.  Flat slot 0 = `P.z`. -/
def sC2ce : CEval := contextualizeEvaluation evalC2ce

/-- A profile declaring itself as its parent: the parent lookup finds the
profile itself, so control linking links its control to itself. -/
def evalC3ce : AnyEval :=
  { profiles := [
      { name := "A", parent_profile := some "A",
        controls := [{ id := "x", code := some "y", results := [] }] } ] }

/-- Contextualization of `evalC3ce`.  Flat slot 0 = `A.x`. -/
def sC3ce : CEval := contextualizeEvaluation evalC3ce

/-- Scenario 2 of the spec: two parentless profiles, each with control
`"x"`; the first has empty results, the second has one result segment. -/
def evalC4a : AnyEval :=
  { profiles := [
      { name := "P1", parent_profile := none,
        controls := [{ id := "x", code := some "a", results := [] }] },
      { name := "P2", parent_profile := none,
        controls := [{ id := "x", code := some "a",
                       results := [{ status := "passed" }] }] } ] }

/-- Contextualization of `evalC4a`.  Flat slots: 0 = `P1.x`, 1 = `P2.x`. -/
def sC4a : CEval := contextualizeEvaluation evalC4a

/-- Scenario 2 with the profile order reversed: the populated peer comes
first in the file. -/
def evalC4b : AnyEval :=
  { profiles := [
      { name := "P2", parent_profile := none,
        controls := [{ id := "x", code := some "a",
                       results := [{ status := "passed" }] }] },
      { name := "P1", parent_profile := none,
        controls := [{ id := "x", code := some "a", results := [] }] } ] }

/-- Contextualization of `evalC4b`.  Flat slots: 0 = `P2.x`, 1 = `P1.x`. -/
def sC4b : CEval := contextualizeEvaluation evalC4b

/-- Case A tie-break witness: wrapper `W` extended by `A` and `B` (both
declare `parent_profile: "W"`, so `W.extends_from = [A, B]` in file order),
and all three profiles contain a control with id `"x"`. -/
def evalC5w : AnyEval :=
  { profiles := [
      { name := "W", parent_profile := none,
        controls := [{ id := "x", code := some "w", results := [] }] },
      { name := "A", parent_profile := some "W",
        controls := [{ id := "x", code := some "a", results := [] }] },
      { name := "B", parent_profile := some "W",
        controls := [{ id := "x", code := some "b", results := [] }] } ] }

/-- Contextualization of `evalC5w`.  Flat slots: 0 = `W.x`, 1 = `A.x`,
2 = `B.x`. -/
def sC5w : CEval := contextualizeEvaluation evalC5w

/-- Error-handling witness: profile `A` declares the unmatched parent name
`"Z"`; profile `C` is extended by `B` (which declares `parent_profile: "C"`),
but `B` contains no control whose id matches `C`'s control `"y"`. -/
def evalC8w : AnyEval :=
  { profiles := [
      { name := "A", parent_profile := some "Z",
        controls := [{ id := "q", code := some "qq", results := [] }] },
      { name := "C", parent_profile := none,
        controls := [{ id := "y", code := some "yy", results := [] }] },
      { name := "B", parent_profile := some "C",
        controls := [{ id := "z", code := some "zz", results := [] }] } ] }

/-- Contextualization of `evalC8w`.  Flat slots: 0 = `A.q`, 1 = `C.y`,
2 = `B.z`. -/
def sC8w : CEval := contextualizeEvaluation evalC8w

/-! ## Theorems -/

/-- C1: the spec's Scenario 1 gets the edge direction backwards.  In the
code, when profile `B` declares `parent_profile: "A"`, the loop pushes
`parent.extends_from += profile`, i.e. `A` (the profile named as parent)
extends from `B` (the declarer) — so it is `A.c1` that gains the
`extends_from` edge, and `B.c1.extends_from` stays empty.  At Scenario 1's
input, `B.c1.extends_from` is not `[A.c1]` (and `B.c1.full_code` is not
`A.c1.full_code`), refuting the claim as stated. -/
theorem c1_counterexample :
    ¬ (extendsFrom sC1 1 = [0] ∧ isRedundant sC1 1 = true ∧
       full_code sC1 1 = full_code sC1 0) := by
  decide

/-- C1 (amended): in Scenario 1 the edge points the other way:
`A.c1.extends_from = [B.c1]` and `B.c1.extended_by = [A.c1]`; `B.c1` is
redundant (its code is empty); `B.c1` is the root of `A.c1`; and `A.c1`'s
full code is its own banner and code followed by `B.c1`'s full code (which
is just `B`'s banner). -/
theorem c1_amended_scenario :
    extendsFrom sC1 0 = [1] ∧ extendedBy sC1 1 = [0] ∧
    extendsFrom sC1 1 = [] ∧
    isRedundant sC1 1 = true ∧
    root sC1 0 = 1 ∧
    full_code sC1 0 = jsTrim (bannerFor "A" ++ "show cmd" ++ "\n\n" ++ full_code sC1 1) ∧
    full_code sC1 1 = jsTrim (bannerFor "B" ++ "") := by
  decide

/-- C2: the redundancy-collapse law fails for a redundant control with no
ancestor.  In `evalC2ce`, the only control has empty code, so
`is_redundant` is true, yet `extends_from` is empty — there is no
`extends_from[0]` whose `full_code` could equal `cc.full_code`. -/
theorem c2_counterexample :
    isRedundant sC2ce 0 = true ∧ extendsFrom sC2ce 0 = [] ∧
    ¬ ∃ a, (extendsFrom sC2ce 0).head? = some a ∧
        full_code sC2ce 0 = full_code sC2ce a := by
  refine ⟨by decide, by decide, ?_⟩
  rintro ⟨a, ha, -⟩
  rw [(by decide : extendsFrom sC2ce 0 = ([] : List Nat))] at ha
  exact Option.noConfusion ha

/-- C3: the `extends_from[0]` graph is not loop-free for every input.  A
profile declaring itself as its parent (`evalC3ce`) makes the parent lookup
find the profile itself, and control linking then links the control to
itself: slot 0 is linked to itself and reachable from itself in one step. -/
theorem c3_counterexample :
    extendsFrom sC3ce 0 = [0] ∧ chainIter sC3ce 1 0 = some 0 := by
  decide

/-- C4: Case B tie-break, both file orders.  In `evalC4a` (`P1` with empty
results first), `P1.x` (slot 0) extends from `P2.x` (slot 1), which is
extended by it; in `evalC4b` (populated `P2` first), `P1.x` (slot 1)
extends from `P2.x` (slot 0): the peer with populated results becomes the
base regardless of profile order. -/
theorem c4_case_b_tiebreak :
    (extendsFrom sC4a 0 = [1] ∧ extendedBy sC4a 1 = [0] ∧
     extendsFrom sC4a 1 = [] ∧ extendedBy sC4a 0 = []) ∧
    (extendsFrom sC4b 1 = [0] ∧ extendedBy sC4b 0 = [1] ∧
     extendsFrom sC4b 0 = [] ∧ extendedBy sC4b 1 = []) := by
  decide

/-- C6: `is_redundant` is true exactly when the raw code is absent or blank
(empty after trimming), or `extends_from` is non-empty and the raw code
equals the raw code of the control's root. -/
theorem c6_is_redundant_characterization (s : CEval) (i : Nat) :
    isRedundant s i = true ↔ isRedundantSpec s i := by
  unfold isRedundant isRedundantSpec
  cases h : dataCode s i with
  | none => simp [h]
  | some str =>
    cases hef : extendsFrom s i with
    | nil => simp [h, hef]
    | cons a l => simp [h, hef]

/-- C7: `contextualizeProfile` yields a stand-alone wrapper: `sourced_from`
is null and every wrapped control has empty `extends_from` and
`extended_by` (no linking phase runs, even if controls share an id). -/
theorem c7_contextualize_profile_no_links (q : AnyProfile) :
    (contextualizeProfile q).sourced_from = none ∧
    ∀ cc ∈ (contextualizeProfile q).contains,
      cc.extends_from = [] ∧ cc.extended_by = [] := by
  refine ⟨rfl, ?_⟩
  intro cc hcc
  unfold contextualizeProfile at hcc
  simp only [List.mem_map] at hcc
  obtain ⟨c, -, rfl⟩ := hcc
  exact ⟨rfl, rfl⟩

/-! ### Arena plumbing -/

theorem listModify_length (f : α → α) (n : Nat) (l : List α) :
    (listModify f n l).length = l.length := by
  induction l generalizing n with
  | nil => cases n <;> rfl
  | cons a as ih =>
    cases n with
    | zero => rfl
    | succ k => simp [listModify, ih]

theorem listModify_get? (f : α → α) (n : Nat) (l : List α) (m : Nat) :
    (listModify f n l)[m]? = if m = n then (l[m]?).map f else l[m]? := by
  induction l generalizing n m with
  | nil => simp [listModify]
  | cons a as ih =>
    cases n with
    | zero =>
      cases m with
      | zero => simp [listModify]
      | succ m2 => simp [listModify]
    | succ k =>
      cases m with
      | zero => simp [listModify]
      | succ m2 => simpa [listModify] using ih k m2

theorem sameStatic_refl (s : CEval) : SameStatic s s :=
  ⟨rfl, rfl, fun _ => rfl⟩

theorem sameStatic_trans {s s2 s3 : CEval} (h1 : SameStatic s s2)
    (h2 : SameStatic s2 s3) : SameStatic s s3 :=
  ⟨h2.1.trans h1.1, h2.2.1.trans h1.2.1, fun i => (h2.2.2 i).trans (h1.2.2 i)⟩

theorem sameStatic_get? {s s2 : CEval} (h : SameStatic s s2) (i : Nat) :
    (s.controls[i]? = none ∧ s2.controls[i]? = none) ∨
    ∃ c c2, s.controls[i]? = some c ∧ s2.controls[i]? = some c2 ∧
      c2.data = c.data ∧ c2.sourced_from = c.sourced_from := by
  have h3 := h.2.2 i
  cases hc : s.controls[i]? with
  | none =>
    cases hc2 : s2.controls[i]? with
    | none => exact Or.inl ⟨rfl, rfl⟩
    | some c2 => rw [hc, hc2] at h3; exact absurd h3 (by simp)
  | some c =>
    cases hc2 : s2.controls[i]? with
    | none => rw [hc, hc2] at h3; exact absurd h3 (by simp)
    | some c2 =>
      rw [hc, hc2] at h3
      simp only [Option.map_some', Option.some.injEq, Prod.mk.injEq] at h3
      exact Or.inr ⟨c, c2, rfl, rfl, h3.1, h3.2⟩

theorem dataId_congr {s s2 : CEval} (h : SameStatic s s2) (i : Nat) :
    dataId s2 i = dataId s i := by
  rcases sameStatic_get? h i with ⟨h1, h2⟩ | ⟨c, c2, h1, h2, hd, -⟩
  · simp [dataId, h1, h2]
  · simp [dataId, h1, h2, hd]

theorem populatedAt_congr {s s2 : CEval} (h : SameStatic s s2) (t : Nat) :
    populatedAt s2 t = populatedAt s t := by
  rcases sameStatic_get? h t with ⟨h1, h2⟩ | ⟨c, c2, h1, h2, hd, -⟩
  · simp [populatedAt, h1, h2]
  · simp [populatedAt, h1, h2, hd]

theorem sameIdList_congr {s s2 : CEval} (h : SameStatic s s2) (cid : String) :
    sameIdList s2 cid = sameIdList s cid := by
  unfold sameIdList
  rw [h.2.1]
  refine List.filter_congr ?_
  intro t _
  rcases sameStatic_get? h t with ⟨h1, h2⟩ | ⟨c, c2, h1, h2, hd, -⟩
  · simp [h1, h2]
  · simp [h1, h2, hd]

theorem find?_congr {p q : α → Bool} (l : List α) (h : ∀ a ∈ l, p a = q a) :
    l.find? p = l.find? q := by
  induction l with
  | nil => rfl
  | cons a as ih =>
    simp only [List.find?]
    rw [h a (List.mem_cons_self a as)]
    cases q a
    · exact ih (fun b hb => h b (List.mem_cons_of_mem a hb))
    · rfl

theorem findAncestorIn_congr {s s2 : CEval} (h : SameStatic s s2)
    (conts : List Nat) (cid : String) :
    findAncestorIn s2 conts cid = findAncestorIn s conts cid := by
  unfold findAncestorIn
  refine find?_congr conts ?_
  intro t _
  rcases sameStatic_get? h t with ⟨h1, h2⟩ | ⟨c, c2, h1, h2, hd, -⟩
  · simp [h1, h2]
  · simp [h1, h2, hd]

theorem caseBBaseOf_congr {s s2 : CEval} (h : SameStatic s s2) (cid : String) :
    caseBBaseOf s2 cid = caseBBaseOf s cid := by
  unfold caseBBaseOf
  rw [sameIdList_congr h, funext (populatedAt_congr h)]

theorem controlTarget_congr {s s2 : CEval} (h : SameStatic s s2) (i : Nat) :
    controlTarget s2 i = controlTarget s i := by
  have hfa : ∀ conts cid, findAncestorIn s2 conts cid = findAncestorIn s conts cid :=
    fun conts cid => findAncestorIn_congr h conts cid
  have hbb : ∀ cid, caseBBaseOf s2 cid = caseBBaseOf s cid :=
    fun cid => caseBBaseOf_congr h cid
  unfold controlTarget
  rcases sameStatic_get? h i with ⟨h1, h2⟩ | ⟨c, c2, h1, h2, hd, hs⟩
  · rw [h1, h2]
  · simp only [h1, h2, h.1, hd, hs, hfa, hbb]

theorem pushEdge_profiles (s : CEval) (i t : Nat) :
    (pushEdge s i t).profiles = s.profiles := rfl

theorem pushEdge_sameStatic (s : CEval) (i t : Nat) :
    SameStatic s (pushEdge s i t) := by
  refine ⟨rfl, by simp [pushEdge, listModify_length], ?_⟩
  intro m
  show ((listModify _ i (listModify _ t s.controls))[m]?).map _ = _
  rw [listModify_get?, listModify_get?]
  by_cases h1 : m = i <;> by_cases h2 : m = t <;>
    cases hm : s.controls[m]? <;> simp [h1, h2, hm] <;> split_ifs <;> simp

theorem extendsFrom_pushEdge_self {s : CEval} {i : Nat}
    (hi : i < s.controls.length) (t : Nat) :
    extendsFrom (pushEdge s i t) i = extendsFrom s i ++ [t] := by
  obtain ⟨c, hc⟩ : ∃ c, s.controls[i]? = some c := by
    rw [List.getElem?_eq_getElem hi]
    exact ⟨_, rfl⟩
  unfold extendsFrom pushEdge
  simp only [listModify_get?, hc, if_pos rfl]
  by_cases h2 : i = t <;> simp [h2, hc]

theorem extendsFrom_pushEdge_other {s : CEval} {i m : Nat} (hm : m ≠ i) (t : Nat) :
    extendsFrom (pushEdge s i t) m = extendsFrom s m := by
  unfold extendsFrom pushEdge
  simp only [listModify_get?, if_neg hm]
  by_cases h2 : m = t <;> cases hc : s.controls[m]? <;> simp [h2, hc]

theorem extendedBy_pushEdge_self {s : CEval} {t : Nat}
    (ht : t < s.controls.length) (i : Nat) :
    extendedBy (pushEdge s i t) t = extendedBy s t ++ [i] := by
  obtain ⟨c, hc⟩ : ∃ c, s.controls[t]? = some c := by
    rw [List.getElem?_eq_getElem ht]
    exact ⟨_, rfl⟩
  unfold extendedBy pushEdge
  simp only [listModify_get?, hc, if_pos rfl]
  by_cases h2 : t = i <;> simp [h2, hc]

theorem extendedBy_pushEdge_other {s : CEval} {t m : Nat} (hm : m ≠ t) (i : Nat) :
    extendedBy (pushEdge s i t) m = extendedBy s m := by
  unfold extendedBy pushEdge
  simp only [listModify_get?]
  by_cases h2 : m = i
  · subst h2
    cases hc : s.controls[m]? <;> simp [hm, hc, if_neg hm]
  · cases hc : s.controls[m]? <;> simp [h2, hm, hc]

/-! ### Characterization of the control-linking loop -/

theorem afterSteps_succ (s0 : CEval) (m : Nat) :
    afterSteps s0 (m + 1) = linkControlStep (afterSteps s0 m) m := by
  unfold afterSteps
  rw [List.range_succ, List.foldl_append]
  rfl

theorem controlTarget_of_oob {s : CEval} {i : Nat} (hi : s.controls.length ≤ i) :
    controlTarget s i = none := by
  unfold controlTarget
  rw [List.getElem?_eq_none hi]

/-- The invariant of the control-linking loop: after `m` iterations the
static data is unchanged, the controls already processed carry exactly the
edge decided for them by `controlTarget` (over the initial state), the
controls not yet processed carry none, and each control's `extended_by`
holds exactly the processed controls that targeted it, in processing
order. -/
theorem linkControls_invariant (s0 : CEval)
    (h0 : ∀ i : Nat, extendsFrom s0 i = [] ∧ extendedBy s0 i = [])
    (htr : ∀ j t : Nat, controlTarget s0 j = some t → t < s0.controls.length) :
    ∀ m : Nat,
      SameStatic s0 (afterSteps s0 m) ∧
      (∀ i : Nat, extendsFrom (afterSteps s0 m) i =
          if i < m then (controlTarget s0 i).toList else []) ∧
      (∀ i : Nat, extendedBy (afterSteps s0 m) i =
          (List.range m).filter (fun j => controlTarget s0 j == some i)) := by
  intro m
  induction m with
  | zero =>
    refine ⟨sameStatic_refl s0, ?_, ?_⟩
    · intro i; simpa using (h0 i).1
    · intro i; simpa using (h0 i).2
  | succ m ih =>
    obtain ⟨hss, hef, heb⟩ := ih
    have hstep : afterSteps s0 (m + 1) = linkControlStep (afterSteps s0 m) m :=
      afterSteps_succ s0 m
    have htgt : controlTarget (afterSteps s0 m) m = controlTarget s0 m :=
      controlTarget_congr hss m
    cases hT : controlTarget s0 m with
    | none =>
      have hid : linkControlStep (afterSteps s0 m) m = afterSteps s0 m := by
        unfold linkControlStep
        rw [htgt, hT]
      rw [hstep, hid]
      refine ⟨hss, ?_, ?_⟩
      · intro i
        rw [hef i]
        by_cases hi : i < m
        · rw [if_pos hi, if_pos (Nat.lt_succ_of_lt hi)]
        · rw [if_neg hi]
          by_cases hi2 : i < m + 1
          · have hieq : i = m := by omega
            subst hieq
            rw [if_pos hi2, hT]
            rfl
          · rw [if_neg hi2]
      · intro i
        rw [heb i, List.range_succ, List.filter_append]
        have hnil : List.filter (fun j => controlTarget s0 j == some i) [m] = [] := by
          simp [hT]
        rw [hnil, List.append_nil]
    | some t =>
      have hmlen : m < s0.controls.length := by
        by_contra hge
        rw [controlTarget_of_oob (Nat.le_of_not_lt hge)] at hT
        exact Option.noConfusion hT
      have htlen : t < s0.controls.length := htr m t hT
      have hmlen2 : m < (afterSteps s0 m).controls.length := by
        rw [hss.2.1]; exact hmlen
      have htlen2 : t < (afterSteps s0 m).controls.length := by
        rw [hss.2.1]; exact htlen
      have hstep2 : afterSteps s0 (m + 1) = pushEdge (afterSteps s0 m) m t := by
        rw [hstep]; unfold linkControlStep; rw [htgt, hT]
      have hss2 : SameStatic s0 (afterSteps s0 (m + 1)) := by
        rw [hstep2]
        exact sameStatic_trans hss (pushEdge_sameStatic _ m t)
      refine ⟨hss2, ?_, ?_⟩
      · intro i
        rw [hstep2]
        by_cases hi : i = m
        · subst hi
          rw [extendsFrom_pushEdge_self hmlen2 t, hef i, if_neg (Nat.lt_irrefl i),
            if_pos (Nat.lt_succ_self i), hT]
          rfl
        · rw [extendsFrom_pushEdge_other hi t, hef i]
          by_cases hi2 : i < m
          · rw [if_pos hi2, if_pos (Nat.lt_succ_of_lt hi2)]
          · rw [if_neg hi2, if_neg (by omega)]
      · intro i
        rw [hstep2]
        by_cases hi : i = t
        · subst hi
          rw [extendedBy_pushEdge_self htlen2 m, heb i, List.range_succ, List.filter_append]
          congr 1
          simp [hT]
        · rw [extendedBy_pushEdge_other hi m, heb i, List.range_succ, List.filter_append]
          have hnil : List.filter (fun j => controlTarget s0 j == some i) [m] = [] := by
            simp [hT]
            exact fun heq => absurd heq.symm hi
          rw [hnil, List.append_nil]

theorem linkControls_eq_afterSteps (s0 : CEval) :
    linkControls s0 = afterSteps s0 s0.controls.length := rfl

theorem sameStatic_linkControls (s0 : CEval)
    (h0 : ∀ i : Nat, extendsFrom s0 i = [] ∧ extendedBy s0 i = [])
    (htr : ∀ j t : Nat, controlTarget s0 j = some t → t < s0.controls.length) :
    SameStatic s0 (linkControls s0) := by
  rw [linkControls_eq_afterSteps]
  exact (linkControls_invariant s0 h0 htr s0.controls.length).1

theorem extendsFrom_linkControls (s0 : CEval)
    (h0 : ∀ i : Nat, extendsFrom s0 i = [] ∧ extendedBy s0 i = [])
    (htr : ∀ j t : Nat, controlTarget s0 j = some t → t < s0.controls.length)
    (i : Nat) :
    extendsFrom (linkControls s0) i = (controlTarget s0 i).toList := by
  rw [linkControls_eq_afterSteps,
    (linkControls_invariant s0 h0 htr s0.controls.length).2.1 i]
  by_cases hi : i < s0.controls.length
  · rw [if_pos hi]
  · rw [if_neg hi, controlTarget_of_oob (Nat.le_of_not_lt hi)]
    rfl

theorem extendedBy_linkControls (s0 : CEval)
    (h0 : ∀ i : Nat, extendsFrom s0 i = [] ∧ extendedBy s0 i = [])
    (htr : ∀ j t : Nat, controlTarget s0 j = some t → t < s0.controls.length)
    (i : Nat) :
    extendedBy (linkControls s0) i =
      (List.range s0.controls.length).filter (fun j => controlTarget s0 j == some i) := by
  rw [linkControls_eq_afterSteps]
  exact (linkControls_invariant s0 h0 htr s0.controls.length).2.2 i

/-! ### Characterization of the profile-linking loop -/

theorem findNameIdx_eq_findProfIdx (pname : String) (qs : List CProfile) :
    findNameIdx pname qs = findProfIdx pname (qs.map CProfile.data) := by
  induction qs with
  | nil => rfl
  | cons p ps ih => simp [findNameIdx, findProfIdx, ih]

theorem findProfIdx_lt_length {pname : String} {l : List AnyProfile} {k : Nat}
    (h : findProfIdx pname l = some k) : k < l.length := by
  induction l generalizing k with
  | nil => exact Option.noConfusion h
  | cons p ps ih =>
    unfold findProfIdx at h
    by_cases hp : p.name == pname
    · rw [if_pos hp] at h
      injection h with h
      simp only [List.length_cons]
      omega
    · rw [if_neg hp] at h
      cases hk : findProfIdx pname ps with
      | none => rw [hk] at h; exact Option.noConfusion h
      | some k2 =>
        rw [hk, Option.map_some'] at h
        injection h with h
        have := ih hk
        simp only [List.length_cons]
        omega

theorem findProfIdx_eq_none {pname : String} {l : List AnyProfile}
    (h : ∀ p ∈ l, p.name ≠ pname) : findProfIdx pname l = none := by
  induction l with
  | nil => rfl
  | cons p ps ih =>
    unfold findProfIdx
    rw [if_neg (by simp [h p (List.mem_cons_self p ps)]),
      ih (fun q hq => h q (List.mem_cons_of_mem p hq))]
    rfl

theorem declParent_lt {e : AnyEval} {j P : Nat} (h : declParent e j = some P) :
    j < e.profiles.length ∧ P < e.profiles.length := by
  unfold declParent at h
  cases hj : e.profiles[j]? with
  | none => rw [hj] at h; exact Option.noConfusion h
  | some p =>
    rw [hj, Option.some_bind] at h
    cases hp : p.parent_profile with
    | none => rw [hp] at h; exact Option.noConfusion h
    | some pname =>
      rw [hp, Option.some_bind] at h
      refine ⟨?_, findProfIdx_lt_length h⟩
      by_contra hge
      rw [List.getElem?_eq_none (Nat.le_of_not_lt hge)] at hj
      exact Option.noConfusion hj

theorem afterPSteps_succ (ps : List CProfile) (m : Nat) :
    afterPSteps ps (m + 1) = linkProfilesStep (afterPSteps ps m) m := by
  unfold afterPSteps
  rw [List.range_succ, List.foldl_append]
  rfl

theorem pLink_get? (qs : List CProfile) (m parentIdx P : Nat) :
    (listModify (fun pr => { pr with extended_by := pr.extended_by ++ [parentIdx] }) m
      (listModify (fun pr => { pr with extends_from := pr.extends_from ++ [m] })
        parentIdx qs))[P]? =
    (qs[P]?).map (fun pr =>
      { pr with
        extends_from := pr.extends_from ++ (if P = parentIdx then [m] else []),
        extended_by := pr.extended_by ++ (if P = m then [parentIdx] else []) }) := by
  rw [listModify_get?, listModify_get?]
  by_cases h1 : P = m
  · subst h1
    by_cases h2 : P = parentIdx
    · subst h2
      cases hq : qs[P]? <;> simp [hq]
    · cases hq : qs[P]? <;> simp [hq, h2]
  · by_cases h2 : P = parentIdx
    · subst h2
      cases hq : qs[P]? <;> simp [hq, h1]
    · cases hq : qs[P]? <;> simp [hq, h1, h2]

/-- The invariant of the profile-linking loop: after `m` iterations the raw
data is untouched, each profile's `extends_from` lists exactly the processed
profiles whose resolved parent declaration is that profile (in processing
order), and each processed profile's `extended_by` holds exactly its own
resolved parent. -/
theorem linkProfiles_invariant (e : AnyEval) :
    ∀ m : Nat,
      (afterPSteps (initProfiles e) m).length = e.profiles.length ∧
      (∀ j : Nat,
        ((afterPSteps (initProfiles e) m)[j]?).map CProfile.data = e.profiles[j]?) ∧
      (∀ P pr, (afterPSteps (initProfiles e) m)[P]? = some pr →
        pr.contains = [] ∧
        pr.extends_from =
          (List.range m).filter (fun j => declParent e j == some P) ∧
        pr.extended_by = if P < m then (declParent e P).toList else []) := by
  intro m
  induction m with
  | zero =>
    refine ⟨by simp [afterPSteps, initProfiles], ?_, ?_⟩
    · intro j
      simp [afterPSteps, initProfiles, List.getElem?_map, Option.map_map]
      cases e.profiles[j]? <;> rfl
    · intro P pr hpr
      simp only [afterPSteps, List.range_zero, List.foldl_nil, initProfiles,
        List.getElem?_map] at hpr
      cases hP : e.profiles[P]? with
      | none => rw [hP] at hpr; exact Option.noConfusion hpr
      | some p =>
        rw [hP] at hpr
        injection hpr with hpr
        subst hpr
        exact ⟨rfl, rfl, by simp⟩
  | succ m ih =>
    obtain ⟨hlen, hdata, hslots⟩ := ih
    rw [afterPSteps_succ]
    set qs := afterPSteps (initProfiles e) m with hqs
    have hbind : (qs[m]?).bind (fun pr => pr.data.parent_profile) =
        (e.profiles[m]?).bind (fun p => p.parent_profile) := by
      have := hdata m
      cases hm : qs[m]? with
      | none => rw [hm] at this; rw [← this]; rfl
      | some pr => rw [hm] at this; rw [← this]; rfl
    have hmapdata : qs.map CProfile.data = e.profiles := by
      apply List.ext_getElem?
      intro j
      rw [List.getElem?_map]
      exact hdata j
    have hscrut : ((qs[m]?).bind (fun pr => pr.data.parent_profile)).bind
        (fun pname => findNameIdx pname qs) = declParent e m := by
      unfold declParent
      rw [hbind]
      cases (e.profiles[m]?).bind (fun p => p.parent_profile) with
      | none => rfl
      | some pname =>
        rw [Option.some_bind, Option.some_bind, findNameIdx_eq_findProfIdx, hmapdata]
    cases hD : declParent e m with
    | none =>
      have hstep : linkProfilesStep qs m = qs := by
        unfold linkProfilesStep
        rw [hscrut, hD]
      rw [hstep]
      refine ⟨hlen, hdata, ?_⟩
      intro P pr hpr
      obtain ⟨hc, hef, heb⟩ := hslots P pr hpr
      refine ⟨hc, ?_, ?_⟩
      · rw [hef, List.range_succ, List.filter_append]
        have hnil : List.filter (fun j => declParent e j == some P) [m] = [] := by
          simp [hD]
        rw [hnil, List.append_nil]
      · rw [heb]
        by_cases hP : P < m
        · rw [if_pos hP, if_pos (Nat.lt_succ_of_lt hP)]
        · rw [if_neg hP]
          by_cases hP2 : P < m + 1
          · have hPm : P = m := by omega
            subst hPm
            rw [if_pos hP2, hD]
            rfl
          · rw [if_neg hP2]
    | some parentIdx =>
      have hstep : linkProfilesStep qs m =
          listModify (fun pr => { pr with extended_by := pr.extended_by ++ [parentIdx] }) m
            (listModify (fun pr => { pr with extends_from := pr.extends_from ++ [m] })
              parentIdx qs) := by
        unfold linkProfilesStep
        rw [hscrut, hD]
      rw [hstep]
      refine ⟨?_, ?_, ?_⟩
      · rw [listModify_length, listModify_length]
        exact hlen
      · intro j
        rw [pLink_get?]
        cases hj : qs[j]? with
        | none => rw [← hdata j, hj]; rfl
        | some pr => rw [← hdata j, hj]; rfl
      · intro P pr hpr
        rw [pLink_get?] at hpr
        cases hP : qs[P]? with
        | none => rw [hP] at hpr; exact Option.noConfusion hpr
        | some pr0 =>
          rw [hP] at hpr
          injection hpr with hpr
          obtain ⟨hc, hef, heb⟩ := hslots P pr0 hP
          subst hpr
          refine ⟨hc, ?_, ?_⟩
          · show pr0.extends_from ++ (if P = parentIdx then [m] else []) = _
            rw [hef, List.range_succ, List.filter_append]
            congr 1
            by_cases hPp : P = parentIdx
            · subst hPp
              simp [hD]
            · simp only [List.filter_cons, List.filter_nil, if_neg hPp, hD]
              have hne : ((some parentIdx == some P) : Bool) = false := by
                simp
                exact Ne.symm hPp
              rw [hne]
              rfl
          · show pr0.extended_by ++ (if P = m then [parentIdx] else []) = _
            by_cases hPm : P = m
            · subst hPm
              rw [if_pos rfl, heb, if_neg (Nat.lt_irrefl P),
                if_pos (Nat.lt_succ_self P), hD]
              rfl
            · rw [if_neg hPm, List.append_nil, heb]
              by_cases hP2 : P < m
              · rw [if_pos hP2, if_pos (by omega)]
              · rw [if_neg hP2, if_neg (by omega)]

theorem linkProfiles_eq_afterPSteps (e : AnyEval) :
    linkProfiles (initProfiles e) = afterPSteps (initProfiles e) e.profiles.length := by
  unfold linkProfiles afterPSteps
  simp only [initProfiles, List.length_map]

/-- Final characterization of the profile-linking phase: raw data is
untouched, a profile's `extends_from` holds exactly the profiles whose
resolved parent declaration names it (in file order), and its `extended_by`
holds exactly its own resolved parent. -/
theorem linkProfiles_spec (e : AnyEval) :
    (linkProfiles (initProfiles e)).length = e.profiles.length ∧
    (∀ j : Nat,
      ((linkProfiles (initProfiles e))[j]?).map CProfile.data = e.profiles[j]?) ∧
    (∀ P pr, (linkProfiles (initProfiles e))[P]? = some pr →
      pr.contains = [] ∧
      pr.extends_from =
        (List.range e.profiles.length).filter (fun j => declParent e j == some P) ∧
      pr.extended_by = (declParent e P).toList) := by
  rw [linkProfiles_eq_afterPSteps]
  obtain ⟨h1, h2, h3⟩ := linkProfiles_invariant e e.profiles.length
  refine ⟨h1, h2, ?_⟩
  intro P pr hpr
  obtain ⟨hc, hef, heb⟩ := h3 P pr hpr
  have hP : P < e.profiles.length := by
    by_contra hge
    rw [List.getElem?_eq_none (by rw [h1]; exact Nat.le_of_not_lt hge)] at hpr
    exact Option.noConfusion hpr
  exact ⟨hc, hef, by rw [heb, if_pos hP]⟩

/-! ### Shape of the built state (phases 1-3) -/

theorem buildAux_fst_length (j start : Nat) (ps : List CProfile) :
    (buildAux j start ps).1.length = ps.length := by
  induction ps generalizing j start with
  | nil => rfl
  | cons p rest ih => simp [buildAux, ih]

theorem buildAux_snd_get? (j start : Nat) (ps : List CProfile) :
    ∀ (i : Nat) (c : CControl), (buildAux j start ps).2[i]? = some c →
    c.extends_from = [] ∧ c.extended_by = [] ∧
    ∃ k pr0, ps[k]? = some pr0 ∧ c.sourced_from = j + k ∧
      c.data ∈ pr0.data.controls := by
  induction ps generalizing j start with
  | nil => intro i c h; exact absurd h (by simp [buildAux])
  | cons p rest ih =>
    intro i c h
    simp only [buildAux] at h
    rw [List.getElem?_append] at h
    by_cases hi : i < (p.data.controls.map (fun c =>
        ({ data := c, sourced_from := j, extends_from := [],
           extended_by := [] } : CControl))).length
    · rw [if_pos hi, List.getElem?_map] at h
      cases ha : p.data.controls[i]? with
      | none => rw [ha] at h; exact Option.noConfusion h
      | some a =>
        rw [ha, Option.map_some'] at h
        injection h with h
        subst h
        refine ⟨rfl, rfl, 0, p, List.getElem?_cons_zero, (Nat.add_zero j).symm,
          List.getElem?_mem ha⟩
    · rw [if_neg hi] at h
      obtain ⟨he1, he2, k, pr0, hk, hsrc, hmem⟩ := ih (j + 1) _ _ _ h
      exact ⟨he1, he2, k + 1, pr0, by rw [List.getElem?_cons_succ]; exact hk,
        by rw [hsrc]; omega, hmem⟩

theorem buildAux_fst_get? (j start : Nat) (ps : List CProfile) :
    ∀ (k : Nat) (pr : CProfile), (buildAux j start ps).1[k]? = some pr →
    ∃ pr0, ps[k]? = some pr0 ∧ pr.data = pr0.data ∧
      pr.extends_from = pr0.extends_from ∧ pr.extended_by = pr0.extended_by ∧
      ∀ t ∈ pr.contains, start ≤ t ∧
        ∃ c, (buildAux j start ps).2[t - start]? = some c ∧
          c.sourced_from = j + k ∧ c.data ∈ pr0.data.controls ∧
          c.data.id ∈ pr0.data.controls.map AnyControl.id := by
  induction ps generalizing j start with
  | nil => intro k pr h; exact absurd h (by simp [buildAux])
  | cons p rest ih =>
    intro k pr h
    simp only [buildAux] at h ⊢
    cases k with
    | zero =>
      rw [List.getElem?_cons_zero] at h
      injection h with h
      subst h
      refine ⟨p, List.getElem?_cons_zero, rfl, rfl, rfl, ?_⟩
      intro t ht
      have hlen : (p.data.controls.map (fun c =>
          ({ data := c, sourced_from := j, extends_from := [],
             extended_by := [] } : CControl))).length = p.data.controls.length :=
        List.length_map _ _
      have hmem := List.mem_range'_1.mp ht
      refine ⟨hmem.1, ?_⟩
      rw [List.getElem?_append, if_pos (by omega), List.getElem?_map]
      have holt : t - start < p.data.controls.length := by omega
      cases ha : p.data.controls[t - start]? with
      | none =>
        rw [List.getElem?_eq_getElem holt] at ha
        exact Option.noConfusion ha
      | some a =>
        exact ⟨_, rfl, (Nat.add_zero j).symm, List.getElem?_mem ha,
          List.mem_map_of_mem _ (List.getElem?_mem ha)⟩
    | succ k2 =>
      rw [List.getElem?_cons_succ] at h
      obtain ⟨pr0, h1, h2, h3, h4, h5⟩ := ih (j + 1) _ k2 pr h
      refine ⟨pr0, by rw [List.getElem?_cons_succ]; exact h1, h2, h3, h4, ?_⟩
      intro t ht
      obtain ⟨hge, c, hc1, hc3, hc4, hc5⟩ := h5 t ht
      have hlen : (p.data.controls.map (fun c =>
          ({ data := c, sourced_from := j, extends_from := [],
             extended_by := [] } : CControl))).length = p.data.controls.length :=
        List.length_map _ _
      refine ⟨by omega, c, ?_, by rw [hc3]; omega, hc4, hc5⟩
      rw [List.getElem?_append, if_neg (by omega), Nat.sub_sub]
      exact hc1

theorem builtState_profiles_length (e : AnyEval) :
    (builtState e).profiles.length = e.profiles.length := by
  show (buildAux 0 0 (linkProfiles (initProfiles e))).1.length = _
  rw [buildAux_fst_length]
  exact (linkProfiles_spec e).1

/-- Profile slots of the built state: raw data untouched, link lists as
characterized by `declParent`, and every contained control slot valid,
owned by this profile, and wrapping one of its raw controls. -/
theorem builtState_profile_slots (e : AnyEval) (P : Nat) (pr : CProfile)
    (h : (builtState e).profiles[P]? = some pr) :
    ∃ p0, e.profiles[P]? = some p0 ∧ pr.data = p0 ∧
      pr.extends_from =
        (List.range e.profiles.length).filter (fun j => declParent e j == some P) ∧
      pr.extended_by = (declParent e P).toList ∧
      ∀ t ∈ pr.contains, ∃ c, (builtState e).controls[t]? = some c ∧
        c.sourced_from = P ∧ c.data ∈ p0.controls ∧
        c.data.id ∈ p0.controls.map AnyControl.id := by
  obtain ⟨pr0, h1, h2, h3, h4, h5⟩ :=
    buildAux_fst_get? 0 0 (linkProfiles (initProfiles e)) P pr h
  obtain ⟨-, hdata, hslots⟩ := linkProfiles_spec e
  obtain ⟨hc0, hef0, heb0⟩ := hslots P pr0 h1
  have hp0 : e.profiles[P]? = some pr0.data := by
    rw [← hdata P, h1]
    rfl
  refine ⟨pr0.data, hp0, h2, by rw [h3, hef0], by rw [h4, heb0], ?_⟩
  intro t ht
  obtain ⟨hge, c, hc1, hc2, hc3, hc4⟩ := h5 t ht
  refine ⟨c, ?_, by rw [hc2]; omega, hc3, hc4⟩
  show (buildAux 0 0 (linkProfiles (initProfiles e))).2[t]? = some c
  have ht0 : t - 0 = t := rfl
  rw [← ht0]
  exact hc1

/-- Control slots of the built state: link lists empty, and the owning
profile slot valid and holding the control's raw data. -/
theorem builtState_control_slots (e : AnyEval) (i : Nat) (c : CControl)
    (h : (builtState e).controls[i]? = some c) :
    c.extends_from = [] ∧ c.extended_by = [] ∧
    ∃ p0, e.profiles[c.sourced_from]? = some p0 ∧ c.data ∈ p0.controls := by
  obtain ⟨h1, h2, k, pr0, hk, hsrc, hmem⟩ :=
    buildAux_snd_get? 0 0 (linkProfiles (initProfiles e)) i c h
  obtain ⟨-, hdata, -⟩ := linkProfiles_spec e
  have hp0 : e.profiles[k]? = some pr0.data := by
    rw [← hdata k, hk]
    rfl
  rw [Nat.zero_add] at hsrc
  exact ⟨h1, h2, pr0.data, by rw [hsrc]; exact hp0, hmem⟩

theorem builtState_links_empty (e : AnyEval) (i : Nat) :
    extendsFrom (builtState e) i = [] ∧ extendedBy (builtState e) i = [] := by
  unfold extendsFrom extendedBy
  cases hc : (builtState e).controls[i]? with
  | none => exact ⟨rfl, rfl⟩
  | some c =>
    obtain ⟨h1, h2, -⟩ := builtState_control_slots e i c hc
    simp [h1, h2]

theorem caseBBaseOf_mem {s : CEval} {cid : String} {b : Nat}
    (h : caseBBaseOf s cid = some b) :
    b < s.controls.length ∧ dataId s b = some cid := by
  have hmem : b ∈ sameIdList s cid := by
    unfold caseBBaseOf at h
    cases hf : (sameIdList s cid).find? (populatedAt s) with
    | some b2 =>
      simp only [hf] at h
      injection h with h
      subst h
      exact List.mem_of_find?_eq_some hf
    | none =>
      simp only [hf] at h
      cases hl : sameIdList s cid with
      | nil => rw [hl] at h; exact Option.noConfusion h
      | cons x xs =>
        rw [hl] at h
        injection h with h
        subst h
        exact List.mem_cons_self x xs
  unfold sameIdList at hmem
  rw [List.mem_filter] at hmem
  obtain ⟨hr, hp⟩ := hmem
  rw [List.mem_range] at hr
  refine ⟨hr, ?_⟩
  unfold dataId
  cases hcb : s.controls[b]? with
  | none => rw [hcb] at hp; exact absurd hp (by simp)
  | some cb =>
    rw [hcb] at hp
    simp only [beq_iff_eq] at hp
    rw [Option.map_some', hp]

/-- Case analysis of the link decision over the built state: if control
slot `i` is assigned target `t`, then either (Case A) `t`'s owning profile
resolved its parent declaration to `i`'s owning profile, or (Case B) `i`'s
owning profile has no profile-level link at all (no resolved parent, and no
profile resolves to it), `t` carries `i`'s raw id, `t` is the Case B base
of that id, and `t ≠ i`. -/
theorem controlTarget_cases (e : AnyEval) (i t : Nat)
    (h : controlTarget (builtState e) i = some t) :
    ∃ ci, (builtState e).controls[i]? = some ci ∧
      t < (builtState e).controls.length ∧
      ((∃ ct, (builtState e).controls[t]? = some ct ∧
          declParent e ct.sourced_from = some ci.sourced_from) ∨
       (declParent e ci.sourced_from = none ∧
        (∀ j : Nat, declParent e j ≠ some ci.sourced_from) ∧
        dataId (builtState e) t = some ci.data.id ∧
        caseBBaseOf (builtState e) ci.data.id = some t ∧ t ≠ i)) := by
  unfold controlTarget at h
  cases hci : (builtState e).controls[i]? with
  | none => simp only [hci] at h; exact Option.noConfusion h
  | some ci =>
    simp only [hci] at h
    cases hpr : (builtState e).profiles[ci.sourced_from]? with
    | none => simp only [hpr] at h; exact Option.noConfusion h
    | some pr =>
      simp only [hpr] at h
      obtain ⟨p0, hp0, hdata, hef, heb, hcont⟩ :=
        builtState_profile_slots e ci.sourced_from pr hpr
      refine ⟨ci, rfl, ?_⟩
      by_cases hlink : (pr.extends_from.length != 0 || pr.extended_by.length != 0) = true
      · rw [if_pos hlink] at h
        by_cases hefz : pr.extends_from.length = 0
        · rw [if_pos hefz] at h
          exact Option.noConfusion h
        · rw [if_neg hefz] at h
          obtain ⟨q, hq, hfq⟩ := List.exists_of_findSome?_eq_some h
          cases hepq : (builtState e).profiles[q]? with
          | none => simp only [hepq] at hfq; exact Option.noConfusion hfq
          | some ep =>
            simp only [hepq] at hfq
            have htmem : t ∈ ep.contains := List.mem_of_find?_eq_some hfq
            obtain ⟨pq, hpq, -, -, -, hcontq⟩ :=
              builtState_profile_slots e q ep hepq
            obtain ⟨ct, hct, hctsrc, -, -⟩ := hcontq t htmem
            have htlt : t < (builtState e).controls.length := by
              by_contra hge
              rw [List.getElem?_eq_none (Nat.le_of_not_lt hge)] at hct
              exact Option.noConfusion hct
            refine ⟨htlt, Or.inl ⟨ct, hct, ?_⟩⟩
            rw [hctsrc]
            have := hq
            rw [hef] at this
            rw [List.mem_filter] at this
            have hbeq := this.2
            simpa using hbeq
      · rw [if_neg hlink] at h
        have hunlinked : pr.extends_from = [] ∧ pr.extended_by = [] := by
          simp only [Bool.or_eq_true, bne_iff_ne, ne_eq, not_or, Decidable.not_not] at hlink
          exact ⟨List.eq_nil_of_length_eq_zero hlink.1,
            List.eq_nil_of_length_eq_zero hlink.2⟩
        have hdp_none : declParent e ci.sourced_from = none := by
          have := hunlinked.2
          rw [heb] at this
          cases hd : declParent e ci.sourced_from with
          | none => rfl
          | some q => rw [hd] at this; exact absurd this (by simp)
        have hdp_noin : ∀ j : Nat, declParent e j ≠ some ci.sourced_from := by
          intro j hj
          have hjlt : j < e.profiles.length := (declParent_lt hj).1
          have : j ∈ pr.extends_from := by
            rw [hef, List.mem_filter]
            exact ⟨List.mem_range.mpr hjlt, by simp [hj]⟩
          rw [hunlinked.1] at this
          exact absurd this (List.not_mem_nil j)
        cases hbb : caseBBaseOf (builtState e) ci.data.id with
        | none => simp only [hbb] at h; exact Option.noConfusion h
        | some b =>
          simp only [hbb] at h
          by_cases hbi : b = i
          · rw [if_pos hbi] at h
            exact Option.noConfusion h
          · rw [if_neg hbi] at h
            injection h with h
            subst h
            obtain ⟨hblt, hbid⟩ := caseBBaseOf_mem hbb
            exact ⟨hblt, Or.inr ⟨hdp_none, hdp_noin, hbid, rfl, hbi⟩⟩

theorem controlTarget_in_range (e : AnyEval) {j t : Nat}
    (h : controlTarget (builtState e) j = some t) :
    t < (builtState e).controls.length := by
  obtain ⟨-, -, hlt, -⟩ := controlTarget_cases e j t h
  exact hlt

/-! ### The contextualized evaluation, characterized -/

theorem ctx_sameStatic (e : AnyEval) :
    SameStatic (builtState e) (contextualizeEvaluation e) :=
  sameStatic_linkControls (builtState e) (builtState_links_empty e)
    (fun _ _ h => controlTarget_in_range e h)

theorem ctx_profiles_eq (e : AnyEval) :
    (contextualizeEvaluation e).profiles = (builtState e).profiles :=
  (ctx_sameStatic e).1

theorem extendsFrom_ctx (e : AnyEval) (i : Nat) :
    extendsFrom (contextualizeEvaluation e) i =
      (controlTarget (builtState e) i).toList :=
  extendsFrom_linkControls (builtState e) (builtState_links_empty e)
    (fun _ _ h => controlTarget_in_range e h) i

theorem extendedBy_ctx (e : AnyEval) (i : Nat) :
    extendedBy (contextualizeEvaluation e) i =
      (List.range (builtState e).controls.length).filter
        (fun j => controlTarget (builtState e) j == some i) :=
  extendedBy_linkControls (builtState e) (builtState_links_empty e)
    (fun _ _ h => controlTarget_in_range e h) i

/-- C10: after `contextualizeEvaluation`, every control's `extends_from`
list has length at most one.  The linking pass visits each control once and
decides at most one target for it (Case A breaks at the first match, Case B
pushes at most one base), and no other iteration pushes to a control's
`extends_from`. -/
theorem c10_extends_from_at_most_one (e : AnyEval) (i : Nat) :
    (extendsFrom (contextualizeEvaluation e) i).length ≤ 1 := by
  rw [extendsFrom_ctx]
  cases controlTarget (builtState e) i <;> simp

/-- C5: Case A first-match tie-break.  If the owning profile of control
slot `i` extends exactly the profiles `[qA, qB]` in that order, the search
in `qA`'s controls finds slot `t`, and `qB` also contains a control with
`i`'s raw id, then `i` is linked to `t` (and `t` is extended by `i`), the
search having stopped at `qA`: no control of `qB` is ever linked from `i`. -/
theorem c5_case_a_first_match (e : AnyEval) (i qA qB t : Nat) (ci : CControl)
    (hci : (contextualizeEvaluation e).controls[i]? = some ci)
    (hprof : profExtendsFrom (contextualizeEvaluation e) ci.sourced_from = [qA, qB])
    (hfound : findAncestorIn (contextualizeEvaluation e)
        (profContains (contextualizeEvaluation e) qA) ci.data.id = some t)
    (hB : ∃ u ∈ profContains (contextualizeEvaluation e) qB,
        dataId (contextualizeEvaluation e) u = some ci.data.id) :
    extendsFrom (contextualizeEvaluation e) i = [t] ∧
    t ∈ profContains (contextualizeEvaluation e) qA ∧
    i ∈ extendedBy (contextualizeEvaluation e) t ∧
    ∀ u ∈ profContains (contextualizeEvaluation e) qB,
      u ∉ extendsFrom (contextualizeEvaluation e) i := by
  have hss := ctx_sameStatic e
  have hpeq := ctx_profiles_eq e
  obtain ⟨c, c2, hc, hc2, hd, hs2⟩ :
      ∃ c c2, (builtState e).controls[i]? = some c ∧
        (contextualizeEvaluation e).controls[i]? = some c2 ∧
        c2.data = c.data ∧ c2.sourced_from = c.sourced_from := by
    rcases sameStatic_get? hss i with ⟨h1, h2⟩ | h2
    · rw [hci] at h2; exact Option.noConfusion h2
    · exact h2
  rw [hci] at hc2
  injection hc2 with hc2
  subst hc2
  have hcontEq : ∀ q : Nat, profContains (contextualizeEvaluation e) q =
      profContains (builtState e) q := by
    intro q
    unfold profContains
    rw [hpeq]
  have hprofB : profExtendsFrom (builtState e) c.sourced_from = [qA, qB] := by
    rw [← hs2]
    unfold profExtendsFrom at hprof ⊢
    rw [← hpeq]
    exact hprof
  have hfoundB : findAncestorIn (builtState e)
      (profContains (builtState e) qA) c.data.id = some t := by
    rw [← findAncestorIn_congr hss, ← hcontEq qA, ← hd]
    exact hfound
  cases hpr : (builtState e).profiles[c.sourced_from]? with
  | none =>
    exfalso
    unfold profExtendsFrom at hprofB
    rw [hpr] at hprofB
    exact List.noConfusion hprofB
  | some pr =>
    have hefpr : pr.extends_from = [qA, qB] := by
      unfold profExtendsFrom at hprofB
      rw [hpr] at hprofB
      exact hprofB
    cases hqA : (builtState e).profiles[qA]? with
    | none =>
      exfalso
      unfold profContains at hfoundB
      rw [hqA] at hfoundB
      exact Option.noConfusion hfoundB
    | some epA =>
      have hcontA : profContains (builtState e) qA = epA.contains := by
        unfold profContains
        rw [hqA]
        rfl
      rw [hcontA] at hfoundB
      have htA : t ∈ epA.contains := List.mem_of_find?_eq_some hfoundB
      have htgt : controlTarget (builtState e) i = some t := by
        unfold controlTarget
        simp only [hc, hpr, hefpr]
        rw [if_pos (by rfl), if_neg (by simp), List.findSome?_cons]
        simp only [hqA, hfoundB]
      have hefr : extendsFrom (contextualizeEvaluation e) i = [t] := by
        rw [extendsFrom_ctx, htgt]
        rfl
      have htmem : t ∈ profContains (contextualizeEvaluation e) qA := by
        rw [hcontEq qA, hcontA]
        exact htA
      have hilt : i < (builtState e).controls.length := by
        by_contra hge
        rw [List.getElem?_eq_none (Nat.le_of_not_lt hge)] at hc
        exact Option.noConfusion hc
      refine ⟨hefr, htmem, ?_, ?_⟩
      · rw [extendedBy_ctx, List.mem_filter, List.mem_range]
        exact ⟨hilt, by simp [htgt]⟩
      · intro u hu humem
        rw [hefr] at humem
        have hut : u = t := by simpa using humem
        subst hut
        have hAB : qA ≠ qB := by
          have hnd : pr.extends_from.Nodup := by
            obtain ⟨-, -, -, hef2, -, -⟩ :=
              builtState_profile_slots e c.sourced_from pr hpr
            rw [hef2]
            exact (List.nodup_range e.profiles.length).filter _
          rw [hefpr] at hnd
          simpa using hnd
        obtain ⟨pA0, -, -, -, -, hcontAs⟩ :=
          builtState_profile_slots e qA epA hqA
        obtain ⟨cA, hcA, hsA, -, -⟩ := hcontAs u htA
        cases hqB : (builtState e).profiles[qB]? with
        | none =>
          rw [hcontEq qB] at hu
          unfold profContains at hu
          rw [hqB] at hu
          exact absurd hu (List.not_mem_nil u)
        | some epB =>
          obtain ⟨pB0, -, -, -, -, hcontBs⟩ :=
            builtState_profile_slots e qB epB hqB
          have huB : u ∈ epB.contains := by
            rw [hcontEq qB] at hu
            unfold profContains at hu
            rw [hqB] at hu
            exact hu
          obtain ⟨cB, hcB, hsB, -, -⟩ := hcontBs u huB
          rw [hcA] at hcB
          injection hcB with hcB
          subst hcB
          rw [hsA] at hsB
          exact hAB hsB

/-- C8: the failure modes of `contextualizeEvaluation` degrade into "no
edge created" (the embedded function is total — no exception is modelled
or needed).  (1) A profile declaring a `parent_profile` name that matches
no sibling profile gets no profile-level edge: its `extended_by` stays
empty and it joins no profile's `extends_from`; processing continues.
(2) A Case A control whose extended profiles contain no control with a
matching id ends with empty `extends_from` (no edge, no error). -/
theorem c8_failure_modes_degrade (e : AnyEval) :
    (∀ j p pn, e.profiles[j]? = some p → p.parent_profile = some pn →
      (∀ q ∈ e.profiles, q.name ≠ pn) →
      profExtendedBy (contextualizeEvaluation e) j = [] ∧
      ∀ P : Nat, j ∉ profExtendsFrom (contextualizeEvaluation e) P) ∧
    (∀ i ci, (contextualizeEvaluation e).controls[i]? = some ci →
      profExtendsFrom (contextualizeEvaluation e) ci.sourced_from ≠ [] →
      (∀ q ∈ profExtendsFrom (contextualizeEvaluation e) ci.sourced_from,
        ∀ u ∈ profContains (contextualizeEvaluation e) q,
          dataId (contextualizeEvaluation e) u ≠ some ci.data.id) →
      extendsFrom (contextualizeEvaluation e) i = []) := by
  have hss := ctx_sameStatic e
  have hpeq := ctx_profiles_eq e
  have hcontEq : ∀ q : Nat, profContains (contextualizeEvaluation e) q =
      profContains (builtState e) q := by
    intro q
    unfold profContains
    rw [hpeq]
  have hefEq : ∀ q : Nat, profExtendsFrom (contextualizeEvaluation e) q =
      profExtendsFrom (builtState e) q := by
    intro q
    unfold profExtendsFrom
    rw [hpeq]
  constructor
  · intro j p pn hj hpn hnomatch
    have hdecl : declParent e j = none := by
      unfold declParent
      rw [hj, Option.some_bind, hpn, Option.some_bind]
      exact findProfIdx_eq_none hnomatch
    constructor
    · unfold profExtendedBy
      rw [hpeq]
      cases hpj : (builtState e).profiles[j]? with
      | none => rfl
      | some pr =>
        obtain ⟨p0, -, -, -, heb, -⟩ := builtState_profile_slots e j pr hpj
        simp [heb, hdecl]
    · intro P hmem
      rw [hefEq P] at hmem
      unfold profExtendsFrom at hmem
      cases hpP : (builtState e).profiles[P]? with
      | none => rw [hpP] at hmem; exact absurd hmem (by simp)
      | some pr =>
        rw [hpP] at hmem
        obtain ⟨p0, -, -, hef, -, -⟩ := builtState_profile_slots e P pr hpP
        simp only [Option.map_some', Option.getD_some] at hmem
        rw [hef, List.mem_filter] at hmem
        have hb := hmem.2
        rw [hdecl] at hb
        exact absurd hb (by simp)
  · intro i ci hci hne hmatchless
    rw [extendsFrom_ctx]
    obtain ⟨c, c2, hcB, hc2, hd, hs2⟩ :
        ∃ c c2, (builtState e).controls[i]? = some c ∧
          (contextualizeEvaluation e).controls[i]? = some c2 ∧
          c2.data = c.data ∧ c2.sourced_from = c.sourced_from := by
      rcases sameStatic_get? hss i with ⟨h1, h2⟩ | h2
      · rw [hci] at h2; exact Option.noConfusion h2
      · exact h2
    rw [hci] at hc2
    injection hc2 with hc2
    subst hc2
    rw [hefEq, hs2] at hne hmatchless
    cases hpr : (builtState e).profiles[c.sourced_from]? with
    | none =>
      exfalso
      unfold profExtendsFrom at hne
      rw [hpr] at hne
      exact hne rfl
    | some pr =>
      have hefpr : pr.extends_from ≠ [] := by
        unfold profExtendsFrom at hne
        rw [hpr] at hne
        simpa using hne
      have htgt : controlTarget (builtState e) i = none := by
        unfold controlTarget
        simp only [hcB, hpr]
        rw [if_pos (by
            simp only [Bool.or_eq_true, bne_iff_ne, ne_eq]
            exact Or.inl (fun hz => hefpr (List.eq_nil_of_length_eq_zero hz)))]
        rw [if_neg (fun hz => hefpr (List.eq_nil_of_length_eq_zero hz))]
        rw [List.findSome?_eq_none_iff]
        intro q hq
        cases hqp : (builtState e).profiles[q]? with
        | none => rfl
        | some ep =>
          simp only []
          unfold findAncestorIn
          rw [List.find?_eq_none]
          intro u hu
          obtain ⟨pq0, -, -, -, -, hcontq⟩ := builtState_profile_slots e q ep hqp
          obtain ⟨cu, hcu, -, -, -⟩ := hcontq u hu
          rw [hcu]
          have hq2 : q ∈ profExtendsFrom (builtState e) c.sourced_from := by
            unfold profExtendsFrom
            rw [hpr]
            simpa using hq
          have hu2 : u ∈ profContains (contextualizeEvaluation e) q := by
            rw [hcontEq q]
            unfold profContains
            rw [hqp]
            simpa using hu
          have hid := hmatchless q hq2 u hu2
          rw [dataId_congr hss] at hid
          unfold dataId at hid
          rw [hcu, Option.map_some'] at hid
          simp only [Bool.not_eq_true, beq_eq_false_iff_ne, ne_eq]
          intro heq
          rw [← hd] at heq
          exact hid (by rw [heq])
      rw [htgt]
      rfl

/-- Witness for C5 at `evalC5w`: `W.x` (slot 0) links to `A.x` (slot 1),
never to `B.x` (slot 2). -/
theorem c5_case_a_first_match_witness :
    extendsFrom sC5w 0 = [1] ∧
    1 ∈ profContains sC5w 1 ∧
    0 ∈ extendedBy sC5w 1 ∧
    ∀ u ∈ profContains sC5w 2, u ∉ extendsFrom sC5w 0 :=
  c5_case_a_first_match evalC5w 0 1 2 1
    { data := { id := "x", code := some "w", results := [] },
      sourced_from := 0, extends_from := [1], extended_by := [] }
    (by decide) (by decide) (by decide) (by decide)

/-- Witness for C8 at `evalC8w`: profile `A` (slot 0) declared the
unmatched parent `"Z"` and got no edge; control `C.y` (slot 1) found no
matching id in extended profile `B` and stays unlinked. -/
theorem c8_failure_modes_degrade_witness :
    (profExtendedBy sC8w 0 = [] ∧ ∀ P : Nat, 0 ∉ profExtendsFrom sC8w P) ∧
    extendsFrom sC8w 1 = [] :=
  ⟨(c8_failure_modes_degrade evalC8w).1 0
      { name := "A", parent_profile := some "Z",
        controls := [{ id := "q", code := some "qq", results := [] }] } "Z"
      (by decide) (by decide) (by decide),
    (c8_failure_modes_degrade evalC8w).2 1
      { data := { id := "y", code := some "yy", results := [] },
        sourced_from := 1, extends_from := [], extended_by := [] }
      (by decide) (by decide) (by decide)⟩

/-! ### Chains, termination, and the derived views -/

theorem termWithin_zero (s : CEval) (i : Nat) :
    termWithin s 0 i = (extendsFrom s i).isEmpty := rfl

theorem termWithin_succ (s : CEval) (f i : Nat) :
    termWithin s (f + 1) i =
      match extendsFrom s i with
      | [] => true
      | a :: _ => termWithin s f a := rfl

theorem rootAux_succ (s : CEval) (f i : Nat) :
    rootAux s (f + 1) i =
      match extendsFrom s i with
      | [] => i
      | a :: _ => rootAux s f a := rfl

theorem fullCodeAux_succ (s : CEval) (f i : Nat) :
    fullCodeAux s (f + 1) i =
      match extendsFrom s i with
      | [] => jsTrim (bannerFor (profileNameOf s i) ++ showCode (dataCode s i))
      | a :: _ =>
        if isRedundant s i then fullCodeAux s f a
        else jsTrim (bannerFor (profileNameOf s i) ++ showCode (dataCode s i) ++
          "\n\n" ++ fullCodeAux s f a) := rfl

theorem termWithin_of_nil {s : CEval} {i : Nat} (h : extendsFrom s i = []) :
    ∀ f, termWithin s f i = true := by
  intro f
  cases f with
  | zero => rw [termWithin_zero, h]; rfl
  | succ f2 => rw [termWithin_succ]; simp only [h]

theorem termWithin_succ_of_cons {s : CEval} {i a : Nat} {rest : List Nat}
    (h : extendsFrom s i = a :: rest) (f : Nat) :
    termWithin s (f + 1) i = termWithin s f a := by
  rw [termWithin_succ]
  simp only [h]

theorem termWithin_mono {s : CEval} :
    ∀ {f i}, termWithin s f i = true → ∀ g, f ≤ g → termWithin s g i = true := by
  intro f
  induction f with
  | zero =>
    intro i h g hg
    rw [termWithin_zero] at h
    exact termWithin_of_nil (List.isEmpty_iff.mp h) g
  | succ f2 ih =>
    intro i h g hg
    cases hef : extendsFrom s i with
    | nil => exact termWithin_of_nil hef g
    | cons a rest =>
      rw [termWithin_succ_of_cons hef] at h
      cases g with
      | zero => omega
      | succ g2 =>
        rw [termWithin_succ_of_cons hef]
        exact ih h g2 (by omega)

theorem rootAux_of_nil {s : CEval} {i : Nat} (h : extendsFrom s i = []) :
    ∀ f, rootAux s f i = i := by
  intro f
  cases f with
  | zero => rfl
  | succ f2 => rw [rootAux_succ]; simp only [h]

theorem rootAux_terminal {s : CEval} :
    ∀ {f i}, termWithin s f i = true → extendsFrom s (rootAux s f i) = [] := by
  intro f
  induction f with
  | zero =>
    intro i h
    rw [termWithin_zero] at h
    exact List.isEmpty_iff.mp h
  | succ f2 ih =>
    intro i h
    cases hef : extendsFrom s i with
    | nil => rw [rootAux_of_nil hef]; exact hef
    | cons a rest =>
      rw [termWithin_succ_of_cons hef] at h
      rw [rootAux_succ]
      simp only [hef]
      exact ih h

theorem fullCodeAux_stable {s : CEval} :
    ∀ {f i}, termWithin s f i = true →
      ∀ g, f + 1 ≤ g → fullCodeAux s g i = fullCodeAux s (f + 1) i := by
  intro f
  induction f with
  | zero =>
    intro i h g hg
    rw [termWithin_zero] at h
    have hef : extendsFrom s i = [] := List.isEmpty_iff.mp h
    cases g with
    | zero => omega
    | succ g2 =>
      rw [fullCodeAux_succ, fullCodeAux_succ]
      simp only [hef]
  | succ f2 ih =>
    intro i h g hg
    cases hef : extendsFrom s i with
    | nil =>
      cases g with
      | zero => omega
      | succ g2 =>
        rw [fullCodeAux_succ, fullCodeAux_succ]
        simp only [hef]
    | cons a rest =>
      rw [termWithin_succ_of_cons hef] at h
      cases g with
      | zero => omega
      | succ g2 =>
        rw [fullCodeAux_succ, fullCodeAux_succ]
        simp only [hef]
        rw [ih h g2 (by omega), ih h (f2 + 1) (by omega)]

/-- C9: in a contextualized evaluation, on any control slot whose overlay
chain terminates (the acyclicity assumed by the claim), `root` is
idempotent: the root control has empty `extends_from`, so the root of the
root equals the root. -/
theorem c9_root_idempotent (e : AnyEval) (i : Nat)
    (h : termWithin (contextualizeEvaluation e)
        (contextualizeEvaluation e).controls.length i = true) :
    extendsFrom (contextualizeEvaluation e)
      (root (contextualizeEvaluation e) i) = [] ∧
    root (contextualizeEvaluation e) (root (contextualizeEvaluation e) i) =
      root (contextualizeEvaluation e) i := by
  have hterm : extendsFrom (contextualizeEvaluation e)
      (root (contextualizeEvaluation e) i) = [] := rootAux_terminal h
  exact ⟨hterm, rootAux_of_nil hterm _⟩

/-- Witness for C9 at `evalC4a` (slot 0 extends slot 1, which is a root). -/
theorem c9_root_idempotent_witness :
    extendsFrom sC4a (root sC4a 0) = [] ∧
    root sC4a (root sC4a 0) = root sC4a 0 :=
  c9_root_idempotent evalC4a 0 (by decide)

/-- C2 (amended): the redundancy-collapse law holds for every redundant
control that has an ancestor (and whose overlay chain terminates): its
`full_code` equals `extends_from[0]`'s `full_code` exactly.  (The original
claim fails only for redundant controls with empty `extends_from`, where
`extends_from[0]` does not exist.) -/
theorem c2_amended_redundancy_collapse (e : AnyEval) (i a : Nat) (rest : List Nat)
    (hterm : termWithin (contextualizeEvaluation e)
        (contextualizeEvaluation e).controls.length i = true)
    (hred : isRedundant (contextualizeEvaluation e) i = true)
    (hext : extendsFrom (contextualizeEvaluation e) i = a :: rest) :
    full_code (contextualizeEvaluation e) i =
      full_code (contextualizeEvaluation e) a := by
  set s := contextualizeEvaluation e with hs
  set N := s.controls.length with hN
  obtain ⟨N2, hN2⟩ : ∃ N2, N = N2 + 1 := by
    refine ⟨N - 1, ?_⟩
    have hsome : ∃ c, s.controls[i]? = some c := by
      cases hc : s.controls[i]? with
      | none =>
        exfalso
        unfold extendsFrom at hext
        rw [hc] at hext
        exact List.noConfusion hext
      | some c => exact ⟨c, rfl⟩
    obtain ⟨c, hc⟩ := hsome
    have hilt : i < N := by
      by_contra hge
      rw [List.getElem?_eq_none (Nat.le_of_not_lt hge)] at hc
      exact Option.noConfusion hc
    omega
  have hterma : termWithin s N2 a = true := by
    rw [hN2, termWithin_succ_of_cons hext N2] at hterm
    exact hterm
  show fullCodeAux s (N + 1) i = fullCodeAux s (N + 1) a
  have hL : fullCodeAux s (N + 1) i = fullCodeAux s N a := by
    rw [fullCodeAux_succ]
    simp only [hext]
    rw [if_pos hred]
  rw [hL, hN2]
  rw [fullCodeAux_stable hterma (N2 + 1 + 1) (by omega)]

/-- Witness for the amended C2 at `evalC4a`: `P1.x` (slot 0) is redundant
(code equal to the base `P2.x`) and collapses to the base's full code. -/
theorem c2_amended_redundancy_collapse_witness :
    full_code sC4a 0 = full_code sC4a 1 :=
  c2_amended_redundancy_collapse evalC4a 0 1 [] (by decide) (by decide) (by decide)

/-! ### Acyclicity of the linked control graph -/

theorem nextC_ctx (e : AnyEval) (i : Nat) :
    nextC (contextualizeEvaluation e) i = controlTarget (builtState e) i := by
  unfold nextC
  rw [extendsFrom_ctx]
  cases controlTarget (builtState e) i <;> rfl

theorem chainIter_zero (s : CEval) (i : Nat) : chainIter s 0 i = some i := rfl

theorem chainIter_succ (s : CEval) (k i : Nat) :
    chainIter s (k + 1) i =
      match nextC s i with
      | none => none
      | some a => chainIter s k a := rfl

theorem chainIter_add (s : CEval) (b : Nat) :
    ∀ (a i : Nat), chainIter s (a + b) i =
      match chainIter s a i with
      | none => none
      | some v => chainIter s b v := by
  intro a
  induction a with
  | zero =>
    intro i
    rw [Nat.zero_add]
    rfl
  | succ a2 ih =>
    intro i
    have hsh : a2 + 1 + b = a2 + b + 1 := by omega
    rw [hsh, chainIter_succ, chainIter_succ]
    cases hn : nextC s i with
    | none => rfl
    | some v => exact ih v

theorem chainIter_succ_back (s : CEval) (k i : Nat) :
    chainIter s (k + 1) i =
      match chainIter s k i with
      | none => none
      | some v => nextC s v := by
  rw [chainIter_add s 1 k i]
  cases chainIter s k i with
  | none => rfl
  | some v =>
    show chainIter s 1 v = nextC s v
    rw [chainIter_succ]
    cases nextC s v <;> rfl

/-- Rotation: any node reached within a cycle is itself on a cycle of the
same length. -/
theorem chainIter_rotate {s : CEval} {i v k m : Nat} (hk : m ≤ k)
    (hcyc : chainIter s k i = some i) (hv : chainIter s m i = some v) :
    chainIter s k v = some v := by
  have h1 : chainIter s (k - m) v = some i := by
    have h := chainIter_add s (k - m) m i
    rw [(by omega : m + (k - m) = k), hcyc, hv] at h
    exact h.symm
  have h2 := chainIter_add s m (k - m) v
  rw [(by omega : k - m + m = k)] at h2
  simp only [h1] at h2
  rw [hv] at h2
  exact h2

/-- On a cycle, every node's outgoing link decision is a Case A link: its
target's owning profile resolved its parent declaration to the node's own
profile.  (A Case B link on a cycle is impossible: the incoming edge of its
source would have to name the source's profile as someone's resolved parent
— contradicting that Case B only fires for unlinked profiles — or be a
Case B edge onto the source, forcing the source to be the base of its own
id and hence to have no outgoing edge.) -/
theorem cycle_edge_caseA (e : AnyEval) {k v : Nat} (hk : 0 < k)
    (hcyc : chainIter (contextualizeEvaluation e) k v = some v) :
    ∃ u cv cu, controlTarget (builtState e) v = some u ∧
      (builtState e).controls[v]? = some cv ∧
      (builtState e).controls[u]? = some cu ∧
      declParent e cu.sourced_from = some cv.sourced_from ∧
      chainIter (contextualizeEvaluation e) k u = some u := by
  set s := contextualizeEvaluation e with hsdef
  obtain ⟨k2, hk2⟩ : ∃ k2, k = k2 + 1 := ⟨k - 1, by omega⟩
  -- v's outgoing edge
  obtain ⟨u, hnu, hue⟩ : ∃ u, nextC s v = some u ∧ chainIter s k2 u = some v := by
    have h := hcyc
    rw [hk2, chainIter_succ] at h
    cases hn : nextC s v with
    | none => rw [hn] at h; exact Option.noConfusion h
    | some u => rw [hn] at h; exact ⟨u, rfl, h⟩
  have hucyc : chainIter s k u = some u := by
    refine @chainIter_rotate s v u k 1 (by omega) hcyc ?_
    rw [chainIter_succ, hnu]
    rfl
  -- v's incoming edge (last node of the cycle)
  obtain ⟨w, hwv, hwcyc⟩ : ∃ w, nextC s w = some v ∧ chainIter s k w = some w := by
    have h := hcyc
    rw [hk2, chainIter_succ_back] at h
    cases hn : chainIter s k2 v with
    | none => rw [hn] at h; exact Option.noConfusion h
    | some w =>
      rw [hn] at h
      exact ⟨w, h, chainIter_rotate (by omega) hcyc hn⟩
  rw [nextC_ctx] at hnu hwv
  obtain ⟨cv, hcv, hult, hcases⟩ := controlTarget_cases e v u hnu
  rcases hcases with ⟨cu, hcu, hdp⟩ | ⟨hnone, hnoin, huid, hbase, hne⟩
  · exact ⟨u, cv, cu, hnu, hcv, hcu, hdp, hucyc⟩
  · -- v's edge is Case B: derive a contradiction from v's incoming edge.
    exfalso
    obtain ⟨cw, hcw, -, hwcases⟩ := controlTarget_cases e w v hwv
    rcases hwcases with ⟨cv2, hcv2, hdp2⟩ | ⟨-, -, hvid, hbase2, -⟩
    · rw [hcv] at hcv2
      injection hcv2 with hcv2
      subst hcv2
      rw [hnone] at hdp2
      exact Option.noConfusion hdp2
    · -- w's edge is Case B onto v, so v is the base of its own id and can
      -- have no outgoing edge.
      have hvid2 : cv.data.id = cw.data.id := by
        unfold dataId at hvid
        rw [hcv, Option.map_some'] at hvid
        injection hvid with hvid
      rw [← hvid2] at hbase2
      rw [hbase2] at hbase
      injection hbase with hbase
      exact hne hbase.symm

theorem pTerm_zero (e : AnyEval) (j : Nat) :
    pTerm e 0 j = (declParent e j).isNone := rfl

theorem pTerm_succ (e : AnyEval) (f j : Nat) :
    pTerm e (f + 1) j =
      match declParent e j with
      | none => true
      | some q => pTerm e f q := rfl

theorem plen_succ (e : AnyEval) (f j : Nat) :
    plen e (f + 1) j =
      match declParent e j with
      | none => 0
      | some q => plen e f q + 1 := rfl

theorem plen_of_none {e : AnyEval} {j : Nat} (h : declParent e j = none) :
    ∀ f, plen e f j = 0 := by
  intro f
  cases f with
  | zero => rfl
  | succ f2 => rw [plen_succ]; simp only [h]

theorem pTerm_succ_of_some {e : AnyEval} {j q : Nat}
    (h : declParent e j = some q) (f : Nat) :
    pTerm e (f + 1) j = pTerm e f q := by
  rw [pTerm_succ]
  simp only [h]

theorem plen_succ_of_some {e : AnyEval} {j q : Nat}
    (h : declParent e j = some q) (f : Nat) :
    plen e (f + 1) j = plen e f q + 1 := by
  rw [plen_succ]
  simp only [h]

theorem plen_stable {e : AnyEval} :
    ∀ {f j}, pTerm e f j = true → ∀ g, f ≤ g → plen e g j = plen e f j := by
  intro f
  induction f with
  | zero =>
    intro j h g hg
    rw [pTerm_zero] at h
    rw [plen_of_none (Option.isNone_iff_eq_none.mp h) g]
    rfl
  | succ f2 ih =>
    intro j h g hg
    cases hd : declParent e j with
    | none => rw [plen_of_none hd g, plen_of_none hd (f2 + 1)]
    | some q =>
      rw [pTerm_succ_of_some hd] at h
      cases g with
      | zero => omega
      | succ g2 =>
        rw [plen_succ_of_some hd, plen_succ_of_some hd, ih h g2 (by omega)]

/-- Under acyclic (terminating) parent declarations, `plen` grows by one
along every resolved declaration. -/
theorem plen_step (e : AnyEval) (hA : ProfileDeclsAcyclic e) {j q : Nat}
    (h : declParent e j = some q) :
    plen e e.profiles.length j = plen e e.profiles.length q + 1 := by
  obtain ⟨hjlt, hqlt⟩ := declParent_lt h
  obtain ⟨P2, hP2⟩ : ∃ P2, e.profiles.length = P2 + 1 :=
    ⟨e.profiles.length - 1, by omega⟩
  have hterm : pTerm e P2 q = true := by
    have hj := hA j hjlt
    rw [hP2, pTerm_succ_of_some h] at hj
    exact hj
  rw [hP2, plen_succ_of_some h, plen_stable hterm (P2 + 1) (by omega)]

/-- Under acyclic parent declarations, the linked control graph has no
cycle: around a hypothetical cycle every edge is a Case A edge
(`cycle_edge_caseA`), so `plenAt` would strictly increase around it. -/
theorem ctx_no_cycle (e : AnyEval) (hA : ProfileDeclsAcyclic e) :
    ∀ (i k : Nat), 0 < k → chainIter (contextualizeEvaluation e) k i ≠ some i := by
  intro i k hk hcyc
  set s := contextualizeEvaluation e with hsdef
  have hstep : ∀ m, m ≤ k → ∀ v, chainIter s m i = some v →
      plenAt e v = plenAt e i + m := by
    intro m
    induction m with
    | zero =>
      intro hm v hv
      rw [chainIter_zero] at hv
      injection hv with hv
      subst hv
      rfl
    | succ m2 ih =>
      intro hm v hv
      rw [chainIter_succ_back] at hv
      cases hw : chainIter s m2 i with
      | none => rw [hw] at hv; exact Option.noConfusion hv
      | some w =>
        simp only [hw] at hv
        have hwcyc : chainIter s k w = some w :=
          chainIter_rotate (by omega) hcyc hw
        obtain ⟨u, cw, cu, htgt, hcw, hcu, hdp, -⟩ :=
          cycle_edge_caseA e hk hwcyc
        have huv : u = v := by
          rw [nextC_ctx, htgt] at hv
          injection hv
        subst huv
        have hplen : plenAt e u = plenAt e w + 1 := by
          unfold plenAt
          rw [hcu, hcw]
          exact plen_step e hA hdp
        rw [hplen, ih (by omega) w hw]
        omega
  have hfinal := hstep k (Nat.le_refl k) i hcyc
  omega

theorem extendsFrom_oob {s : CEval} {v : Nat} (h : s.controls.length ≤ v) :
    extendsFrom s v = [] := by
  unfold extendsFrom
  rw [List.getElem?_eq_none h]
  rfl

theorem alive_steps {s : CEval} :
    ∀ (m : Nat) {f i : Nat}, termWithin s f i = false → m ≤ f →
      ∃ v, chainIter s m i = some v ∧ termWithin s (f - m) v = false := by
  intro m
  induction m with
  | zero =>
    intro f i h hm
    exact ⟨i, rfl, by rw [Nat.sub_zero]; exact h⟩
  | succ m2 ih =>
    intro f i h hm
    cases hef : extendsFrom s i with
    | nil =>
      rw [termWithin_of_nil hef f] at h
      exact Bool.noConfusion h
    | cons a rest =>
      obtain ⟨f2, hf2⟩ : ∃ f2, f = f2 + 1 := ⟨f - 1, by omega⟩
      rw [hf2, termWithin_succ_of_cons hef] at h
      obtain ⟨v, hv, hterm2⟩ := ih h (by omega)
      refine ⟨v, ?_, ?_⟩
      · rw [chainIter_succ]
        have hna : nextC s i = some a := by
          unfold nextC
          rw [hef]
          rfl
        rw [hna]
        exact hv
      · rw [hf2, (by omega : f2 + 1 - (m2 + 1) = f2 - m2)]
        exact hterm2

/-- Under acyclic parent declarations, every overlay chain of the
contextualized evaluation reaches a root within `N` steps, `N` the number
of controls: were it still alive after `N` steps, two of the `N + 1`
visited slots would coincide, which would be a cycle. -/
theorem ctx_termWithin (e : AnyEval) (hA : ProfileDeclsAcyclic e) (i : Nat) :
    termWithin (contextualizeEvaluation e)
      (contextualizeEvaluation e).controls.length i = true := by
  set s := contextualizeEvaluation e with hsdef
  set N := s.controls.length with hN
  by_contra hterm
  rw [Bool.not_eq_true] at hterm
  have halive : ∀ m, m ≤ N →
      ∃ v, chainIter s m i = some v ∧ extendsFrom s v ≠ [] := by
    intro m hm
    obtain ⟨v, hv, hterm2⟩ := alive_steps m hterm hm
    refine ⟨v, hv, ?_⟩
    intro hef
    rw [termWithin_of_nil hef] at hterm2
    exact Bool.noConfusion hterm2
  have hcol : ∀ x y : Nat, x < y → y ≤ N →
      (chainIter s x i).getD 0 = (chainIter s y i).getD 0 → False := by
    intro x y hlt hyN hfe
    obtain ⟨vx, hvx, -⟩ := halive x (by omega)
    obtain ⟨vy, hvy, -⟩ := halive y (by omega)
    rw [hvx, hvy] at hfe
    simp only [Option.getD_some] at hfe
    subst hfe
    have h := chainIter_add s (y - x) x i
    rw [(by omega : x + (y - x) = y)] at h
    simp only [hvx] at h
    rw [hvy] at h
    exact ctx_no_cycle e hA vx (y - x) (by omega) h.symm
  have hmaps : ∀ m ∈ Finset.range (N + 1),
      (chainIter s m i).getD 0 ∈ Finset.range N := by
    intro m hm
    rw [Finset.mem_range] at hm
    obtain ⟨v, hv, hne⟩ := halive m (by omega)
    rw [hv, Option.getD_some, Finset.mem_range]
    by_contra hge
    exact hne (extendsFrom_oob (by omega))
  obtain ⟨x, hx, y, hy, hxy, hfeq⟩ :=
    Finset.exists_ne_map_eq_of_card_lt_of_maps_to
      (by simp : (Finset.range N).card < (Finset.range (N + 1)).card) hmaps
  rw [Finset.mem_range] at hx hy
  rcases Nat.lt_or_ge x y with hlt | hge
  · exact hcol x y hlt (by omega) hfeq
  · have hyx : y < x := by omega
    exact hcol y x hyx (by omega) hfeq.symm

theorem buildAux_snd_length (j start : Nat) (ps : List CProfile) :
    (buildAux j start ps).2.length =
      (ps.map (fun p => p.data.controls.length)).sum := by
  induction ps generalizing j start with
  | nil => rfl
  | cons p rest ih => simp [buildAux, ih]

theorem ctx_controls_length (e : AnyEval) :
    (contextualizeEvaluation e).controls.length = totalControls e := by
  have h1 : (contextualizeEvaluation e).controls.length =
      (builtState e).controls.length := (ctx_sameStatic e).2.1
  rw [h1]
  show (buildAux 0 0 (linkProfiles (initProfiles e))).2.length = _
  rw [buildAux_snd_length]
  unfold totalControls
  congr 1
  apply List.ext_getElem?
  intro n
  rw [List.getElem?_map, List.getElem?_map]
  have hd := (linkProfiles_spec e).2.1 n
  cases hn : (linkProfiles (initProfiles e))[n]? with
  | none => rw [hn] at hd; rw [← hd]; rfl
  | some pr => rw [hn] at hd; rw [← hd]; rfl

/-- C3 (amended): for every raw evaluation whose resolved parent
declarations are acyclic (no profile reaches itself following
`parent_profile` resolution — in particular no profile names itself), the
`extends_from[0]` chains of the contextualized evaluation contain no cycle:
no control is reachable from itself, no control is linked to itself, and
computing `root` terminates within `N` steps, `N` the number of controls.
(The unrestricted claim is false: a profile declaring itself as parent
links its control to itself, `c3_counterexample`.) -/
theorem c3_amended_acyclic_no_cycles (e : AnyEval) (hA : ProfileDeclsAcyclic e)
    (i : Nat) :
    (∀ k, 0 < k → chainIter (contextualizeEvaluation e) k i ≠ some i) ∧
    i ∉ extendsFrom (contextualizeEvaluation e) i ∧
    termWithin (contextualizeEvaluation e) (totalControls e) i = true := by
  refine ⟨fun k hk => ctx_no_cycle e hA i k hk, ?_, ?_⟩
  · intro hmem
    rw [extendsFrom_ctx] at hmem
    cases ht : controlTarget (builtState e) i with
    | none => rw [ht] at hmem; exact absurd hmem (List.not_mem_nil i)
    | some t =>
      rw [ht] at hmem
      have hti : i = t := by simpa using hmem
      subst hti
      have hstep : chainIter (contextualizeEvaluation e) 1 i = some i := by
        rw [chainIter_succ, nextC_ctx, ht]
        rfl
      exact ctx_no_cycle e hA i 1 (by omega) hstep
  · rw [← ctx_controls_length]
    exact ctx_termWithin e hA i

/-- Witness for the amended C3 at `evalC4a` (no parent declarations at
all, hence trivially acyclic), control slot 0. -/
theorem c3_amended_acyclic_no_cycles_witness :
    (∀ k, 0 < k → chainIter sC4a k 0 ≠ some 0) ∧
    0 ∉ extendsFrom sC4a 0 ∧
    termWithin sC4a (totalControls evalC4a) 0 = true :=
  c3_amended_acyclic_no_cycles evalC4a
    (by unfold ProfileDeclsAcyclic; decide) 0

end InspecContext
